import Mathlib

set_option maxHeartbeats 1000000

namespace ObjToH

/-- One face tag `(v, t, n)` of indices into the vertex, texture and
normal arrays; `-1` encodes an absent texture or normal index
(`parseFaceTag` in `obj_to_h.py`). -/
abbrev Attr : Type := Int × Int × Int

/-- A triangle: an ordered triple of face tags (`splitFace` output). -/
abbrev Tri : Type := Attr × Attr × Attr

/-- A directed edge: an ordered pair of face tags. -/
abbrev Edge : Type := Attr × Attr

/-- Python `invertEdge(E) = (E[1], E[0])`. -/
def invertEdge (E : Edge) : Edge := (E.2, E.1)

/-- Python `edge(T, i)`: edge number `i` of the triangle `T`. -/
def edge (T : Tri) (i : Nat) : Edge :=
  if i = 0 then (T.1, T.2.1) else if i = 1 then (T.2.1, T.2.2) else (T.2.2, T.1)

/-- Python `edgeAfter(T, E)`: the edge of `T` cyclically after `E`; the
source calls `error(...)` (aborting the whole run) when `E` is not an edge
of `T`, modelled by `none`. -/
def edgeAfter (T : Tri) (E : Edge) : Option Edge :=
  if E = (T.1, T.2.1) then some (T.2.1, T.2.2)
  else if E = (T.2.1, T.2.2) then some (T.2.2, T.1)
  else if E = (T.2.2, T.1) then some (T.1, T.2.1)
  else none

/-- Python `rotateTriangleStartEdge(T, E)`: rotate the corners of `T` so
that its first edge is `E`; `none` models the aborting `error(...)` branch. -/
def rotateTriangleStartEdge (T : Tri) (E : Edge) : Option Tri :=
  if (T.1, T.2.1) = E then some T
  else if (T.2.1, T.2.2) = E then some (T.2.1, T.2.2, T.1)
  else if (T.2.2, T.1) = E then some (T.2.2, T.1, T.2.1)
  else none

/-- One chain entry: the edge-selection flag recorded by the builder (`none`
for the first triangle of a chain) together with the stored (rotated)
triangle. -/
abbrev Entry : Type := Option Nat × Tri

/-- A chain of triangles, as stored in the Python list `C`. -/
abbrev Chain : Type := List Entry

instance instDecEqEntry : DecidableEq Entry := inferInstance

instance instDecEqChain : DecidableEq Chain := inferInstance

instance instDecEqChainList : DecidableEq (List Chain) := inferInstance

/-- Mutable state of `reorderObjectTriangles`: the `availT` list (`none` for
consumed triangles), the `dicedge` map from a directed edge to the Python
list of triangle indexes carrying it (the Python list is used as a stack,
popped from its end; this embedding keeps the stack top at the HEAD of the
Lean list), and the `firstTavail` / `nbTavail` counters. -/
structure BState where
  availT : List (Option Tri)
  dic : Edge → List Nat
  firstTavail : Nat
  nbTavail : Nat

/-- Push one index on the stack `dicedge[E]` (Python `append`; the stack top
is the list head in this embedding). -/
def pushEdge (d : Edge → List Nat) (E : Edge) (i : Nat) : Edge → List Nat :=
  fun E2 => if E2 = E then i :: d E2 else d E2

/-- The `dicedge` map built by the loop at the top of
`reorderObjectTriangles`: index `i` is pushed for each of the three edges of
triangle `i`, for `i` ascending. -/
def buildDic (obj : List Tri) : Edge → List Nat :=
  obj.enum.foldl
    (fun d it =>
      pushEdge (pushEdge (pushEdge d (edge it.2 0) it.1) (edge it.2 1) it.1) (edge it.2 2) it.1)
    (fun _ => [])

/-- The `while len(L) > 0` pop loop of Python `findTriangleWithEdge`: pop
indexes until an available triangle is found; returns the found
index/triangle (if any) and the remaining stack. The outer `none` models an
out-of-range `availT[i]` (a Python `IndexError`, unreachable here since the
stacks only hold indexes below `len(obj)`). -/
def popLoop (availT : List (Option Tri)) : List Nat → Option (Option (Nat × Tri) × List Nat)
  | [] => some (none, [])
  | i :: L =>
    match availT[i]? with
    | none => none
    | some none => popLoop availT L
    | some (some TT) => some (some (i, TT), L)

/-- Replace the stack stored for edge `E` in the `dicedge` map. -/
def setDic (d : Edge → List Nat) (E : Edge) (L : List Nat) : Edge → List Nat :=
  fun E2 => if E2 = E then L else d E2

/-- Python `findTriangleWithEdge(E)`: return a triangle carrying edge `E`
and mark it used, or `(none, st)` when no available triangle carries `E`. -/
def findTriangleWithEdge (E : Edge) (st : BState) : Option (Option Tri × BState) :=
  match popLoop st.availT (st.dic E) with
  | none => none
  | some (none, L2) => some (none, { st with dic := setDic st.dic E L2 })
  | some (some (i, TT), L2) =>
      some (some TT,
        { st with
            availT := st.availT.set i none
            dic := setDic st.dic E L2
            nbTavail := st.nbTavail - 1 })

/-- The `while availT[firstTavail] == None` scan of Python
`getNextTriangle`, written with the explicit bound `availT.length + 1 - j`
on the number of steps; running past the end of the list (a Python
`IndexError`) yields `none`, and coincides with the step bound running out. -/
def scanFrom (availT : List (Option Tri)) : Nat → Nat → Option (Nat × Tri)
  | _, 0 => none
  | j, fuel + 1 =>
    match availT[j]? with
    | none => none
    | some none => scanFrom availT (j + 1) fuel
    | some (some T) => some (j, T)

/-- Python `getNextTriangle()`: `some none` means every triangle is used
(the outer loop then returns `R`); the outer `none` models an aborting scan. -/
def getNextTriangle (st : BState) : Option (Option (Tri × BState)) :=
  if st.nbTavail = 0 then some none
  else
    match scanFrom st.availT st.firstTavail (st.availT.length + 1 - st.firstTavail) with
    | none => none
    | some (j, T) =>
        some (some (T,
          { st with
              availT := st.availT.set j none
              firstTavail := j
              nbTavail := st.nbTavail - 1 }))

/-- The tail of the inner loop body of `reorderObjectTriangles` once the
next triangle `T2` with shared edge `E` has been found: derive the flag `n`
(three sequential Python `if` statements, the last matching one winning),
abort (`none`) on the `"wrong next edge"` and `"edge not found"` errors, and
append the rotated `T2`; returns the grown chain, the new current triangle
and the new current edge. -/
def attachStep (C : Chain) (E : Edge) (T2 : Tri) : Option (Chain × Tri × Edge) :=
  match C.getLast? with
  | none => none
  | some (_, pT) =>
    if E = (pT.1, pT.2.1) ∧ 1 < C.length then none
    else
      match (if E = (pT.2.1, pT.2.2) then some 1
             else if E = (pT.2.2, pT.1) then some 0
             else if E = (pT.1, pT.2.1) then some 2
             else none : Option Nat) with
      | none => none
      | some n =>
        match rotateTriangleStartEdge T2 (invertEdge E) with
        | none => none
        | some T2r => some (C ++ [(some n, T2r)], T2, invertEdge E)

/-- The inner `while True` loop of `reorderObjectTriangles`, with one unit
of fuel consumed per attached triangle (each attachment marks one available
triangle used, so `availT.length + 1` fuel always suffices). -/
def extendChain (st : BState) (C : Chain) (T : Tri) (E : Edge) : Nat → Option (Chain × BState)
  | 0 => none
  | fuel + 1 =>
    if C.length = 65535 then some (C, st)
    else
      match edgeAfter T E with
      | none => none
      | some E1 =>
        match findTriangleWithEdge (invertEdge E1) st with
        | none => none
        | some (some T2, st1) =>
          (match attachStep C E1 T2 with
           | none => none
           | some (C2, T3, E3) => extendChain st1 C2 T3 E3 fuel)
        | some (none, st1) =>
          match edgeAfter T E1 with
          | none => none
          | some E2 =>
            match findTriangleWithEdge (invertEdge E2) st1 with
            | none => none
            | some (some T2, st2) =>
              (match attachStep C E2 T2 with
               | none => none
               | some (C2, T3, E3) => extendChain st2 C2 T3 E3 fuel)
            | some (none, st2) =>
              if 1 < C.length then some (C, st2)
              else
                match edgeAfter T E2 with
                | none => none
                | some E3 =>
                  match findTriangleWithEdge (invertEdge E3) st2 with
                  | none => none
                  | some (some T2, st3) =>
                    (match attachStep C E3 T2 with
                     | none => none
                     | some (C2, T3, E4) => extendChain st3 C2 T3 E4 fuel)
                  | some (none, st3) => some (C, st3)

/-- The post-loop fixup of `reorderObjectTriangles`: when the second
triangle of a chain attached through the wrap-around edge (flag `2`),
re-rotate the seed triangle in place and reset the flag to `0`. -/
def fixupChain (C : Chain) : Chain :=
  match C with
  | (_, T0) :: (f1, T1) :: rest =>
      if f1 = some 2 then
        (none, (T0.2.1, T0.2.2, T0.1)) :: (some 0, T1) :: rest
      else C
  | _ => C

/-- The outer `while True` loop of `reorderObjectTriangles`: one unit of
fuel per chain started (each chain consumes at least its seed triangle, so
`availT.length + 1` fuel always suffices). -/
def buildChains (st : BState) : Nat → Option (List Chain)
  | 0 => none
  | fuel + 1 =>
    match getNextTriangle st with
    | none => none
    | some none => some []
    | some (some (T, st1)) =>
      match extendChain st1 [(none, T)] T (edge T 2) (st1.availT.length + 1) with
      | none => none
      | some (C, st2) =>
        match buildChains st2 fuel with
        | none => none
        | some R => some (fixupChain C :: R)

/-- Python `reorderObjectTriangles(obj)`: greedy partition of an object's
triangle list into chains; `none` models the aborting `error(...)` branches. -/
def reorderObjectTriangles (obj : List Tri) : Option (List Chain) :=
  buildChains
    { availT := obj.map some
      dic := buildDic obj
      firstTavail := 0
      nbTavail := obj.length }
    (obj.length + 1)

/-- The list of triangles stored in a chain, winding as stored. -/
def chainTris (C : Chain) : List Tri := C.map (fun e => e.2)

/-- All triangles stored across the chains of one object, in order. -/
def storedTris (R : List Chain) : List Tri := R.flatMap chainTris

/-- One cyclic rotation of the corners of a triangle (winding preserved). -/
def rot1 (T : Tri) : Tri := (T.2.1, T.2.2, T.1)

/-- The multiset of the three cyclic rotations of a triangle; two triangles
are cyclic rotations of each other exactly when their `rots` agree. -/
def rots (T : Tri) : Multiset Tri := {T, rot1 T, rot1 (rot1 T)}

/-- The triangles still available in the builder state, in slot order. -/
def availTris (st : BState) : List Tri := st.availT.reduceOption

/-- Concrete example object: two triangles sharing the edge `(0, 1)` (face
tags carry no texture/normal index). -/
def exObj1 : List Tri :=
  [((0, -1, -1), (1, -1, -1), (2, -1, -1)), ((1, -1, -1), (0, -1, -1), (3, -1, -1))]

/-- The chain list `reorderObjectTriangles` produces on `exObj1` (checked by
evaluation): one chain of two triangles, seed re-rotated by the fixup. -/
def exR1 : List Chain :=
  [[(none, ((1, -1, -1), (2, -1, -1), (0, -1, -1))),
    (some 0, ((1, -1, -1), (0, -1, -1), (3, -1, -1)))]]

/-- Adjacency between consecutive chain entries: the later entry `q` carries
a flag `some n` and its first edge is the inverse of edge `2 - n` of the
earlier entry `p` (flag `n = 1` selects edge `1`, `n = 0` edge `2`, `n = 2`
edge `0`, matching the flag assignment in `reorderObjectTriangles`). -/
def adjRelB (p q : Entry) : Bool :=
  match q.1 with
  | none => false
  | some n => edge q.2 0 == invertEdge (edge p.2 (2 - n))

/-- Every pair of consecutive entries of the chain is adjacent in the sense
of `adjRelB`. -/
def chainAdj (C : Chain) : Prop := List.Chain' (fun p q => adjRelB p q = true) C

/-- Executable form of `chainAdj`. -/
def chainAdjB : Chain → Bool
  | p :: q :: rest => adjRelB p q && chainAdjB (q :: rest)
  | _ => true

/-- Every non-first entry of the chain carries flag `0` or `1`. -/
def chainFlagsOk (C : Chain) : Prop := ∀ e ∈ C.tail, e.1 = some 0 ∨ e.1 = some 1

/-- Flag invariant holding before the end-of-chain fixup: non-first entries
carry flag `0`, `1` or `2`, and entries after the second carry `0` or `1`. -/
def preFlagsOk (C : Chain) : Prop :=
  (∀ e ∈ C.tail, e.1 = some 0 ∨ e.1 = some 1 ∨ e.1 = some 2)
    ∧ (∀ e ∈ C.tail.tail, e.1 = some 0 ∨ e.1 = some 1)

/-- Modelled from the spec (claim C2 wording): a variant of the inner loop
in which a chain that already holds at least two triangles tries ONLY the
single next edge rotation — if that lookup fails the chain terminates with
no second attempt; the seed triangle keeps the source behaviour (up to
three rotations). Compared against `extendChain`, the source's loop. -/
def extendChainSingle (st : BState) (C : Chain) (T : Tri) (E : Edge) :
    Nat → Option (Chain × BState)
  | 0 => none
  | fuel + 1 =>
    if C.length = 65535 then some (C, st)
    else
      match edgeAfter T E with
      | none => none
      | some E1 =>
        match findTriangleWithEdge (invertEdge E1) st with
        | none => none
        | some (some T2, st1) =>
          (match attachStep C E1 T2 with
           | none => none
           | some (C2, T3, E3) => extendChainSingle st1 C2 T3 E3 fuel)
        | some (none, st1) =>
          if 1 < C.length then some (C, st1)
          else
            match edgeAfter T E1 with
            | none => none
            | some E2 =>
              match findTriangleWithEdge (invertEdge E2) st1 with
              | none => none
              | some (some T2, st2) =>
                (match attachStep C E2 T2 with
                 | none => none
                 | some (C2, T3, E3) => extendChainSingle st2 C2 T3 E3 fuel)
              | some (none, st2) =>
                match edgeAfter T E2 with
                | none => none
                | some E3 =>
                  match findTriangleWithEdge (invertEdge E3) st2 with
                  | none => none
                  | some (some T2, st3) =>
                    (match attachStep C E3 T2 with
                     | none => none
                     | some (C2, T3, E4) => extendChainSingle st3 C2 T3 E4 fuel)
                  | some (none, st3) => some (C, st3)

/-- The outer loop driving `extendChainSingle` (claim C2's variant). -/
def buildChainsSingle (st : BState) : Nat → Option (List Chain)
  | 0 => none
  | fuel + 1 =>
    match getNextTriangle st with
    | none => none
    | some none => some []
    | some (some (T, st1)) =>
      match extendChainSingle st1 [(none, T)] T (edge T 2) (st1.availT.length + 1) with
      | none => none
      | some (C, st2) =>
        match buildChainsSingle st2 fuel with
        | none => none
        | some R => some (fixupChain C :: R)

/-- The whole builder under claim C2's single-rotation policy. -/
def reorderObjectTrianglesSingle (obj : List Tri) : Option (List Chain) :=
  buildChainsSingle
    { availT := obj.map some
      dic := buildDic obj
      firstTavail := 0
      nbTavail := obj.length }
    (obj.length + 1)

/-- Concrete example object for C2: a strip of three triangles in which the
third attaches to the second through the second rotation (edge 2) after the
first rotation (edge 1) finds no neighbour. -/
def exObj2 : List Tri :=
  [((0, -1, -1), (1, -1, -1), (2, -1, -1)),
   ((1, -1, -1), (0, -1, -1), (3, -1, -1)),
   ((1, -1, -1), (3, -1, -1), (4, -1, -1))]

/-- What the source builder produces on `exObj2` (checked by evaluation):
one chain of three triangles, the third found by the second rotation. -/
def exR2 : List Chain :=
  [[(none, ((1, -1, -1), (2, -1, -1), (0, -1, -1))),
    (some 0, ((1, -1, -1), (0, -1, -1), (3, -1, -1))),
    (some 0, ((1, -1, -1), (3, -1, -1), (4, -1, -1)))]]

/-- What the single-rotation policy of claim C2 produces on `exObj2`: the
first chain stops at two triangles and the third triangle seeds its own
chain. -/
def exR2s : List Chain :=
  [[(none, ((1, -1, -1), (2, -1, -1), (0, -1, -1))),
    (some 0, ((1, -1, -1), (0, -1, -1), (3, -1, -1)))],
   [(none, ((1, -1, -1), (3, -1, -1), (4, -1, -1)))]]

/-- Concrete builder state for the C2 witness: one available triangle
carrying edge `(3, 1)`. -/
def stW : BState :=
  { availT := [some ((1, -1, -1), (3, -1, -1), (4, -1, -1))]
    dic := buildDic [((1, -1, -1), (3, -1, -1), (4, -1, -1))]
    firstTavail := 0
    nbTavail := 1 }

/-- Concrete two-entry chain for the C2 witness. -/
def chainW : Chain :=
  [(none, ((0, -1, -1), (1, -1, -1), (2, -1, -1))),
   (some 2, ((1, -1, -1), (0, -1, -1), (3, -1, -1)))]

/-- Current triangle for the C2 witness. -/
def triW : Tri := ((1, -1, -1), (0, -1, -1), (3, -1, -1))

/-- Current edge for the C2 witness. -/
def edgeW : Edge := ((1, -1, -1), (0, -1, -1))

/-- The state after the failed first-rotation lookup in the C2 witness: only
the popped (empty) stack for the probed edge changed. -/
def stW1 : BState :=
  { stW with dic := setDic stW.dic ((3, -1, -1), (0, -1, -1)) [] }

/-! ### The attribute renumberer (`reorderVNTarrays` and its helpers) -/

/-- Python list read `l[j]` with Python's index semantics: a negative index
counts from the end; a read outside the list is an `IndexError`, modelled by
`none`. -/
def pyGet {α : Type} (l : List α) (j : Int) : Option α :=
  if 0 ≤ j then l[j.toNat]?
  else if 0 ≤ j + l.length then l[(j + l.length).toNat]? else none

/-- Python list write `l[i] = x` at a nonnegative index; writing outside the
list is an `IndexError`, modelled by `none`. -/
def pySet {α : Type} (l : List α) (i : Nat) (x : α) : Option (List α) :=
  if i < l.length then some (l.set i x) else none

/-- Component `index` of one face tag: `T[i][index]` in the source
(`index` is always 0, 1 or 2 in `reorderVNTarrays`). -/
def tagComp (a : Attr) (index : Nat) : Int :=
  if index = 0 then a.1 else if index = 1 then a.2.1 else a.2.2

/-- The values component `index` contributes to the first-use walk for one
chain: the three tags of the first triangle in order, then the third tag of
each later triangle. `none` models the `C[0]` crash on an empty chain. Both
`orderByFirstUse` and `trim` in the source walk exactly this sequence with
their two nested loops. -/
def chainSeq (index : Nat) (C : Chain) : Option (List Int) :=
  match C with
  | [] => none
  | (_, T) :: rest =>
      some ([tagComp T.1 index, tagComp T.2.1 index, tagComp T.2.2 index]
        ++ rest.map (fun e => tagComp e.2.2.2 index))

/-- The full first-use walk over objects, then chains (the traversal order
shared by `orderByFirstUse` and `trim`). -/
def travSeq (index : Nat) (R : List (List Chain)) : Option (List Int) := do
  let parts ← (R.flatMap (fun O => O)).mapM (chainSeq index)
  some parts.flatten

/-- One step of the first-use accumulation: append `x` unless already seen
(the Python `setv` set holds exactly the elements of `vi` while it is
built). -/
def addNew (vi : List Int) (x : Int) : List Int :=
  if x ∈ vi then vi else vi ++ [x]

/-- The unreferenced positions appended after the referenced ones (the
`for j in range(len(ar)): if j not in setv` loop). -/
def unreferencedTail (n : Nat) (vi : List Int) : List Int :=
  ((List.range n).map (fun (j : Nat) => (j : Int))).filter (fun z => decide (z ∉ vi))

/-- The validation loop of `orderByFirstUse`: scan `vi` rejecting negative
values, values at or above `n`, and duplicates (`setc` holds the already
seen values, kept here as a list), then require `len(setc) == n`. -/
def checkPerm (n : Nat) : List Int → List Int → Bool
  | seen, [] => seen.length == n
  | seen, i :: rest =>
    if i < 0 then false
    else if (n : Int) ≤ i then false
    else if i ∈ seen then false
    else checkPerm n (i :: seen) rest

/-- Python `orderByFirstUse(ar, R, index)`: the first-use list over the
traversal order, extended with the unreferenced positions and validated as
a permutation; `none` models the four aborting `error(...)` branches (and
the `C[0]` crash on an empty chain). -/
def orderByFirstUse {α : Type} (ar : List α) (R : List (List Chain)) (index : Nat) :
    Option (List Int) := do
  let s ← travSeq index R
  let vi := s.foldl addNew []
  if ar.isEmpty then
    if vi = [-1] then some [] else none
  else
    if ar.length < vi.length then none
    else
      let vi2 := if vi.length < ar.length then vi ++ unreferencedTail ar.length vi else vi
      if checkPerm ar.length [] vi2 then some vi2 else none

/-- Python `invperm(vi)`: start from a copy of `vi` and write `i` at
position `vi[i]`; the callers pass a validated permutation, so every write
is in range. -/
def invperm (vi : List Int) : List Int :=
  vi.enum.foldl (fun iv p => iv.set p.2.toNat ((p.1 : Nat) : Int)) vi

/-- Python `chI(T, index, iv)`: replace component `index` of one face tag by
its image under `iv`; `none` models an out-of-range `iv[...]` read and the
`"wrong index"` error. -/
def chI (a : Attr) (index : Nat) (iv : List Int) : Option Attr :=
  if index = 0 then (pyGet iv a.1).map (fun w => (w, a.2.1, a.2.2))
  else if index = 1 then (pyGet iv a.2.1).map (fun w => (a.1, w, a.2.2))
  else if index = 2 then (pyGet iv a.2.2).map (fun w => (a.1, a.2.1, w))
  else none

/-- Apply `chI` to the three corners of a stored triangle. -/
def chTri (T : Tri) (index : Nat) (iv : List Int) : Option Tri := do
  let a ← chI T.1 index iv
  let b ← chI T.2.1 index iv
  let c ← chI T.2.2 index iv
  some (a, b, c)

/-- The array permutation step of `reorderArray`: `newar = ar[:]` then
`newar[i] = ar[v]` for `(i, v)` over `enumerate(vi)` (then `ar` is
overwritten with `newar` element by element). -/
def permuteArray {α : Type} (vi : List Int) (ar : List α) : Option (List α) :=
  vi.enum.foldlM (fun newar p => do
    let x ← pyGet ar p.2
    pySet newar p.1 x) ar

/-- Python `reorderArray(vi, ar, R, index)`: permute the array by `vi` and
rewrite every stored tag through the inverse permutation; a no-op when `vi`
is empty. -/
def reorderArray {α : Type} (vi : List Int) (ar : List α) (R : List (List Chain))
    (index : Nat) : Option (List α × List (List Chain)) :=
  if vi = [] then some (ar, R)
  else do
    let newar ← permuteArray vi ar
    let iv := invperm vi
    let R2 ← R.mapM (fun O => O.mapM (fun C => C.mapM (fun e => do
        let T2 ← chTri e.2 index iv
        some (e.1, T2))))
    some (newar, R2)

/-- The `next` counter walk of `trim` over the traversal values: a value
above the frontier is the aborting `"array reordering was incorrect"`
error; a value equal to the frontier advances it. -/
def trimCounter : List Int → Nat → Option Nat
  | [], next => some next
  | z :: rest, next =>
    if (next : Int) < z then none
    else if z = (next : Int) then trimCounter rest (next + 1)
    else trimCounter rest next

/-- Python `trim(ar, R, index, arname)`: drop the entries of `ar` above the
highest referenced frontier. -/
def trim {α : Type} (ar : List α) (R : List (List Chain)) (index : Nat) :
    Option (List α) := do
  let s ← travSeq index R
  let next ← trimCounter s 0
  if ar.length < next then none
  else some (ar.take next)

/-- Python `reorderVNTarrays(vertice, texture, normal, R)`: renumber the
three attribute arrays in sequence (component 0, then 1, then 2), threading
the updated chains; returns the three final arrays and chain structure. -/
def reorderVNTarrays {α β γ : Type} (vertice : List α) (texture : List β) (normal : List γ)
    (R : List (List Chain)) :
    Option (List α × List β × List γ × List (List Chain)) := do
  let vi_v ← orderByFirstUse vertice R 0
  let p1 ← reorderArray vi_v vertice R 0
  let vertice2 ← trim p1.1 p1.2 0
  let vi_t ← orderByFirstUse texture p1.2 1
  let p2 ← reorderArray vi_t texture p1.2 1
  let texture2 ← trim p2.1 p2.2 1
  let vi_n ← orderByFirstUse normal p2.2 2
  let p3 ← reorderArray vi_n normal p2.2 2
  let normal2 ← trim p3.1 p3.2 2
  some (vertice2, texture2, normal2, p3.2)

/-- The one-attribute pipeline (first-use permutation, application, trim)
that `reorderVNTarrays` runs for each of the three components. -/
def processAttr {α : Type} (ar : List α) (R : List (List Chain)) (index : Nat) :
    Option (List α × List (List Chain)) := do
  let vi ← orderByFirstUse ar R index
  let p ← reorderArray vi ar R index
  let ar2 ← trim p.1 p.2 index
  some (ar2, p.2)

/-- The first-use list of a traversal sequence: its distinct values in order
of first appearance (phase one of `orderByFirstUse`). -/
def firstUse (s : List Int) : List Int := s.foldl addNew []

/-- Every component-`index` value stored anywhere in the chains (three tags
per stored triangle). -/
def allComps (index : Nat) (R : List (List Chain)) : List Int :=
  R.flatMap (fun O => O.flatMap (fun C => C.flatMap (fun e =>
    [tagComp e.2.1 index, tagComp e.2.2.1 index, tagComp e.2.2.2 index])))

/-- The identity permutation `[0, 1, ..., n-1]` as a list of integers. -/
def identityPerm (n : Nat) : List Int := (List.range n).map (fun (j : Nat) => (j : Int))

/-- Replace component `index` of a face tag through `g` (the pure image of
`chI` when every lookup succeeds). -/
def mapTag (g : Int → Int) (index : Nat) (a : Attr) : Attr :=
  (if index = 0 then g a.1 else a.1,
   if index = 1 then g a.2.1 else a.2.1,
   if index = 2 then g a.2.2 else a.2.2)

/-- Map every stored tag of every chain through `mapTag g index` (the pure
image of the chain-rewrite pass of `reorderArray`). -/
def mapChains (g : Int → Int) (index : Nat) (R : List (List Chain)) : List (List Chain) :=
  R.map (fun O => O.map (fun C => C.map (fun e =>
    (e.1, (mapTag g index e.2.1, mapTag g index e.2.2.1, mapTag g index e.2.2.2)))))

/-- The entry rewrite applied by `reorderArray` when every lookup succeeds. -/
def entryMap (g : Int → Int) (index : Nat) (e : Entry) : Entry :=
  (e.1, (mapTag g index e.2.1, mapTag g index e.2.2.1, mapTag g index e.2.2.2))

/-- Concrete three-attribute model for evaluation: one object, one chain of
two triangles referencing vertices `{2,5,7,9}`, texcoords `{0,1,2,3}` and
normals `{0,1,2}`. -/
def RexW : List (List Chain) :=
  [[[(none, ((2, 1, 0), (5, 0, 1), (7, 2, 0))),
     (some 0, ((7, 2, 0), (2, 1, 0), (9, 3, 2)))]]]

def verticeW : List Int := [100, 101, 102, 103, 104, 105, 106, 107, 108, 109]

def textureW : List Int := [200, 201, 202, 203, 204]

def normalW : List Int := [300, 301, 302, 303]

/-- First-run output of the renumberer on the concrete model above. -/
def vertice2W : List Int := [102, 105, 107, 109]

def texture2W : List Int := [201, 200, 202, 203]

def normal2W : List Int := [300, 301, 302]

def Rex2W : List (List Chain) :=
  [[[(none, ((0, 0, 0), (1, 1, 1), (2, 2, 0))),
     (some 0, ((2, 2, 0), (0, 0, 0), (3, 3, 2)))]]]

/-- The single object of `Rex2W`, used as concrete encoder input. -/
def objW : List Chain :=
  [[(none, ((0, 0, 0), (1, 1, 1), (2, 2, 0))),
    (some 0, ((2, 2, 0), (0, 0, 0), (3, 3, 2)))]]

/-- Python `writeelem(el)` in `savemodel`: emit `el[0]`, then `el[1]` and
`el[2]` only when they are `>= 0`. -/
def writeelem (el : Attr) : List Int :=
  [el.1] ++ (if 0 ≤ el.2.1 then [el.2.1] else []) ++ (if 0 ≤ el.2.2 then [el.2.2] else [])

/-- The words `savemodel` emits for one non-first chain entry: the third
corner of its stored triangle with the flag folded into the vertex field
(`L[1][2][0] + 32768*L[0]`); `none` models the crash on a missing flag
(which the builder never produces). -/
def encodeEntry (e : Entry) : Option (List Int) :=
  match e.1 with
  | none => none
  | some nf => some (writeelem (e.2.2.2.1 + 32768 * (nf : Int), e.2.2.2.2.1, e.2.2.2.2.2))

/-- The words `savemodel` emits for one chain: the chain length, the first
triangle's three corners in full, then one folded element per subsequent
triangle; `none` models the `C[0]` crash on an empty chain. -/
def encodeChain (C : Chain) : Option (List Int) :=
  match C with
  | [] => none
  | e0 :: rest =>
    (rest.mapM encodeEntry).map (fun parts =>
      ((rest.length + 1 : Nat) : Int) ::
        (writeelem e0.2.1 ++ writeelem e0.2.2.1 ++ writeelem e0.2.2.2 ++ parts.flatten))

/-- The face stream `savemodel` emits for one object: the chain blocks in
order followed by the terminating `0`. -/
def encodeObject (O : List Chain) : Option (List Int) :=
  (O.mapM encodeChain).map (fun parts => parts.flatten ++ [0])

/-- Python `elem` in `savemodel`: `1`, plus one per present attribute kind. -/
def elemOf (ht hn : Bool) : Nat :=
  1 + (if ht then 1 else 0) + (if hn then 1 else 0)

/-- The declared element count `tl = 1 + sum(1 + (2+len(C))*elem)` computed
by `savemodel` before emitting. -/
def declaredTl (O : List Chain) (ht hn : Bool) : Nat :=
  O.foldl (fun tl C => tl + (1 + (2 + C.length) * elemOf ht hn)) 1

/-- Uniform presence of a face tag's texcoord/normal components: present
(`>= 0`) when the mesh has the attribute kind, the `-1` placeholder when it
does not. -/
def cornerPres (ht hn : Bool) (a : Attr) : Prop :=
  (if ht then 0 ≤ a.2.1 else a.2.1 = -1) ∧ (if hn then 0 ≤ a.2.2 else a.2.2 = -1)

instance instDecCornerPres (ht hn : Bool) (a : Attr) : Decidable (cornerPres ht hn a) := by
  unfold cornerPres
  infer_instance

/-- Modelled from the spec: read one optional stream field — consume a word
when the attribute kind is present, otherwise yield the `-1` placeholder. -/
def readOpt (b : Bool) (ws : List Int) : Option (Int × List Int) :=
  if b then
    match ws with
    | [] => none
    | x :: ws2 => some (x, ws2)
  else some (-1, ws)

/-- Modelled from the spec: read one attribute-index triple
`[v][t?][n?]` from the stream. -/
def readCorner (ht hn : Bool) (ws : List Int) : Option (Attr × List Int) :=
  match ws with
  | [] => none
  | v :: ws1 =>
    (readOpt ht ws1).bind (fun p1 =>
      (readOpt hn p1.2).map (fun p2 => ((v, p1.1, p2.1), p2.2)))

/-- Modelled from the spec: decode one subsequent triangle — split the
folded vertex field `v + 32768*bit`, rotate the predecessor against the
edge the bit selects (bit `b` selects edge `2 - b`, inverted), and attach
the new corner. -/
def decodeTailStep (ht hn : Bool) (pT : Tri) (ws : List Int) : Option (Tri × List Int) :=
  (readCorner ht hn ws).map (fun p =>
    let b : Nat := if 32768 ≤ p.1.1 then 1 else 0
    let E := edge pT (2 - b)
    ((E.2, E.1, (p.1.1 - 32768 * (b : Int), p.1.2.1, p.1.2.2)), p.2))

/-- Modelled from the spec: decode `k` subsequent triangles, each against
the previously decoded one. -/
def decodeTailRun (ht hn : Bool) : Nat → Tri → List Int → Option (List Tri × List Int)
  | 0, _, ws => some ([], ws)
  | k + 1, pT, ws =>
    (decodeTailStep ht hn pT ws).bind (fun p =>
      (decodeTailRun ht hn k p.1 p.2).map (fun q => (p.1 :: q.1, q.2)))

/-- Modelled from the spec: decode one chain block after its length word —
the first triangle in full, then `len - 1` incremental triangles. -/
def decodeChain (ht hn : Bool) (len : Nat) (ws : List Int) : Option (List Tri × List Int) :=
  (readCorner ht hn ws).bind (fun p1 =>
    (readCorner ht hn p1.2).bind (fun p2 =>
      (readCorner ht hn p2.2).bind (fun p3 =>
        (decodeTailRun ht hn (len - 1) (p1.1, p2.1, p3.1) p3.2).map (fun q =>
          ((p1.1, p2.1, p3.1) :: q.1, q.2)))))

/-- Modelled from the spec: decode chain blocks until the terminating `0`
word (fuel-bounded; each block consumes at least its length word). -/
def decodeChains (ht hn : Bool) : Nat → List Int → Option (List (List Tri))
  | 0, _ => none
  | fuel + 1, ws =>
    match ws with
    | [] => none
    | w :: ws1 =>
      if w = 0 then some []
      else if w < 0 then none
      else
        (decodeChain ht hn w.toNat ws1).bind (fun p =>
          (decodeChains ht hn fuel p.2).map (fun rest => p.1 :: rest))

/-- Modelled from the spec: decode a whole per-object face stream. -/
def decodeStream (ht hn : Bool) (ws : List Int) : Option (List (List Tri)) :=
  decodeChains ht hn (ws.length + 1) ws

/-- A 3-vector of reals (idealizing Python floats). -/
abbrev Vec3 : Type := ℝ × ℝ × ℝ

/-- Python `addVec(VA, VB)`. -/
noncomputable def addVec (VA VB : Vec3) : Vec3 :=
  (VA.1 + VB.1, VA.2.1 + VB.2.1, VA.2.2 + VB.2.2)

/-- Python `normVec(V)`: normalize unless the norm is zero. -/
noncomputable def normVec (V : Vec3) : Vec3 :=
  if Real.sqrt (V.1 * V.1 + V.2.1 * V.2.1 + V.2.2 * V.2.2) = 0 then V
  else (V.1 / Real.sqrt (V.1 * V.1 + V.2.1 * V.2.1 + V.2.2 * V.2.2),
        V.2.1 / Real.sqrt (V.1 * V.1 + V.2.1 * V.2.1 + V.2.2 * V.2.2),
        V.2.2 / Real.sqrt (V.1 * V.1 + V.2.1 * V.2.1 + V.2.2 * V.2.2))

/-- Python `crossProduct(VA, VB)`. -/
noncomputable def crossProduct (VA VB : Vec3) : Vec3 :=
  (VA.2.1 * VB.2.2 - VA.2.2 * VB.2.1,
   VA.2.2 * VB.1 - VA.1 * VB.2.2,
   VA.1 * VB.2.1 - VA.2.1 * VB.1)

/-- Python `Vec(VA, VB) = VB - VA`. -/
noncomputable def Vec (VA VB : Vec3) : Vec3 :=
  (VB.1 - VA.1, VB.2.1 - VA.2.1, VB.2.2 - VA.2.2)

/-- Python list assignment `l[i] = x` with an `Int` index (negative indices
wrap once, out-of-range writes raise). -/
def pySetI {α : Type} (l : List α) (i : Int) (x : α) : Option (List α) :=
  if 0 ≤ i then pySet l i.toNat x
  else if 0 ≤ (l.length : Int) + i then pySet l ((l.length : Int) + i).toNat x
  else none

/-- One triangle of the normal-synthesis loop of `fixNormals`: accumulate
the (unnormalized) face normal into the three corner slots, sequentially as
the source does. -/
noncomputable def accNormalTri (vertice : List Vec3) (nrm : List Vec3) (T : Tri) :
    Option (List Vec3) := do
  let v0 ← pyGet vertice T.1.1
  let v1 ← pyGet vertice T.2.1.1
  let v2 ← pyGet vertice T.2.2.1
  let V0 := Vec v1 v0
  let V1 := Vec v2 v1
  let V2 := Vec v0 v2
  let N := addVec (addVec (crossProduct V2 V0) (crossProduct V0 V1)) (crossProduct V1 V2)
  let n0 ← pyGet nrm T.1.1
  let nrm1 ← pySetI nrm T.1.1 (addVec n0 N)
  let n1 ← pyGet nrm1 T.2.1.1
  let nrm2 ← pySetI nrm1 T.2.1.1 (addVec n1 N)
  let n2 ← pyGet nrm2 T.2.2.1
  pySetI nrm2 T.2.2.1 (addVec n2 N)

/-- The synthesis pass of `fixNormals`: start from one zero normal per
vertex and accumulate over every triangle of every object. -/
noncomputable def synthNormals (vertice : List Vec3) (obj : List (List Tri)) :
    Option (List Vec3) :=
  obj.flatten.foldlM (accNormalTri vertice) (List.replicate vertice.length ((0 : ℝ), 0, 0))

/-- The in-place retagging `o[i] = ((T1[0],T1[1],T1[0]), ...)` of
`fixNormals`: each corner's normal index becomes its vertex index. -/
def retagTri (T : Tri) : Tri :=
  ((T.1.1, T.1.2.1, T.1.1), (T.2.1.1, T.2.1.2.1, T.2.1.1), (T.2.2.1, T.2.2.2.1, T.2.2.1))

def retagObj (obj : List (List Tri)) : List (List Tri) :=
  obj.map (fun o => o.map retagTri)

/-- Python `fixNormals(vertice, normal, obj)`: when the normal array is
empty and the user agrees (`ans`), synthesize smooth per-vertex normals and
retag the triangles; in every case normalize each entry of the resulting
normal array before returning it. The triangle lists are returned alongside
to expose the in-place mutation. -/
noncomputable def fixNormals (vertice normal : List Vec3) (obj : List (List Tri))
    (ans : Bool) : Option (List Vec3 × List (List Tri)) :=
  if normal.length = 0 then
    if ans then
      (synthNormals vertice obj).map (fun nrm => (nrm.map normVec, retagObj obj))
    else some ([], obj)
  else some (normal.map normVec, obj)

/-! ### Elementary facts about rotations -/

theorem rots_rot1 (T : Tri) : rots (rot1 T) = rots T := by
  have h3 : rot1 (rot1 (rot1 T)) = T := rfl
  simp only [rots, h3]
  change (rot1 T ::ₘ rot1 (rot1 T) ::ₘ T ::ₘ 0) = (T ::ₘ rot1 T ::ₘ rot1 (rot1 T) ::ₘ 0)
  rw [Multiset.cons_swap (rot1 (rot1 T)) T, Multiset.cons_swap (rot1 T) T]

theorem rotateTriangleStartEdge_rots {T : Tri} {E : Edge} {T2 : Tri}
    (h : rotateTriangleStartEdge T E = some T2) : rots T2 = rots T := by
  unfold rotateTriangleStartEdge at h
  split_ifs at h <;> simp only [Option.some.injEq] at h <;> subst h
  · rfl
  · exact rots_rot1 T
  · rw [show ((T.2.2, T.1, T.2.1) : Tri) = rot1 (rot1 T) from rfl,
      rots_rot1 (rot1 T), rots_rot1 T]

/-! ### Consumption facts about the builder state -/

theorem reduceOption_set_none {l : List (Option Tri)} {i : Nat} {T : Tri}
    (h : l[i]? = some (some T)) :
    (l.reduceOption : Multiset Tri) = T ::ₘ ((l.set i none).reduceOption : Multiset Tri) := by
  induction l generalizing i with
  | nil => simp at h
  | cons a tl ih =>
    cases i with
    | zero =>
      simp only [List.getElem?_cons_zero, Option.some.injEq] at h
      subst h
      simp [List.reduceOption_cons_of_some]
    | succ i =>
      simp only [List.getElem?_cons_succ] at h
      cases a with
      | none => simpa [List.reduceOption] using ih h
      | some x =>
        have := ih h
        simp only [List.set_cons_succ, List.reduceOption_cons_of_some, ← Multiset.cons_coe]
        rw [this, Multiset.cons_swap]

theorem popLoop_found {availT : List (Option Tri)} {L L2 : List Nat} {i : Nat} {T : Tri}
    (h : popLoop availT L = some (some (i, T), L2)) : availT[i]? = some (some T) := by
  induction L with
  | nil => simp [popLoop] at h
  | cons j L ih =>
    unfold popLoop at h
    match hj : availT[j]? with
    | none => rw [hj] at h; exact absurd h (by simp)
    | some none => rw [hj] at h; exact ih h
    | some (some TT) =>
      rw [hj] at h
      simp only [Option.some.injEq, Prod.mk.injEq] at h
      obtain ⟨⟨h1, h2⟩, -⟩ := h
      subst h1; subst h2; exact hj

theorem find_some_avail {E : Edge} {st st1 : BState} {T : Tri}
    (h : findTriangleWithEdge E st = some (some T, st1)) :
    (availTris st : Multiset Tri) = T ::ₘ (availTris st1 : Multiset Tri)
      ∧ st1.nbTavail = st.nbTavail - 1 := by
  unfold findTriangleWithEdge at h
  match hp : popLoop st.availT (st.dic E) with
  | none => rw [hp] at h; exact absurd h (by simp)
  | some (none, L2) => rw [hp] at h; simp at h
  | some (some (i, TT), L2) =>
    rw [hp] at h
    simp only [Option.some.injEq, Prod.mk.injEq] at h
    obtain ⟨hT, hst⟩ := h
    subst hT; subst hst
    exact ⟨reduceOption_set_none (popLoop_found hp), rfl⟩

theorem find_none_avail {E : Edge} {st st1 : BState}
    (h : findTriangleWithEdge E st = some (none, st1)) :
    st1.availT = st.availT ∧ st1.nbTavail = st.nbTavail := by
  unfold findTriangleWithEdge at h
  match hp : popLoop st.availT (st.dic E) with
  | none => rw [hp] at h; exact absurd h (by simp)
  | some (none, L2) =>
    rw [hp] at h
    simp only [Option.some.injEq, Prod.mk.injEq] at h
    obtain ⟨-, hst⟩ := h
    subst hst; exact ⟨rfl, rfl⟩
  | some (some (i, TT), L2) => rw [hp] at h; simp at h

theorem scanFrom_found {availT : List (Option Tri)} {j fuel j2 : Nat} {T : Tri}
    (h : scanFrom availT j fuel = some (j2, T)) : availT[j2]? = some (some T) := by
  induction fuel generalizing j with
  | zero => simp [scanFrom] at h
  | succ fuel ih =>
    unfold scanFrom at h
    match hj : availT[j]? with
    | none => rw [hj] at h; exact absurd h (by simp)
    | some none => rw [hj] at h; exact ih h
    | some (some TT) =>
      rw [hj] at h
      simp only [Option.some.injEq, Prod.mk.injEq] at h
      obtain ⟨h1, h2⟩ := h
      subst h1; subst h2; exact hj

theorem getNext_some_avail {st st1 : BState} {T : Tri}
    (h : getNextTriangle st = some (some (T, st1))) :
    (availTris st : Multiset Tri) = T ::ₘ (availTris st1 : Multiset Tri)
      ∧ st1.nbTavail = st.nbTavail - 1 := by
  unfold getNextTriangle at h
  split_ifs at h with h0
  · simp at h
  · match hs : scanFrom st.availT st.firstTavail (st.availT.length + 1 - st.firstTavail) with
    | none => rw [hs] at h; exact absurd h (by simp)
    | some (j, T2) =>
      rw [hs] at h
      simp only [Option.some.injEq, Prod.mk.injEq] at h
      obtain ⟨hT, hst⟩ := h
      subst hT; subst hst
      exact ⟨reduceOption_set_none (scanFrom_found hs), rfl⟩

theorem getNext_none_done {st : BState}
    (h : getNextTriangle st = some none) : st.nbTavail = 0 := by
  unfold getNextTriangle at h
  split_ifs at h with h0
  · exact h0
  · match hs : scanFrom st.availT st.firstTavail (st.availT.length + 1 - st.firstTavail) with
    | none => rw [hs] at h; exact absurd h (by simp)
    | some (j, T2) => rw [hs] at h; simp at h

theorem availTris_card (st : BState) :
    ((availTris st : Multiset Tri)).card = (availTris st).length := Multiset.coe_card _

theorem find_some_inv {E : Edge} {st st1 : BState} {T : Tri}
    (h : findTriangleWithEdge E st = some (some T, st1))
    (hi : st.nbTavail = (availTris st).length) :
    st1.nbTavail = (availTris st1).length := by
  obtain ⟨hm, hn⟩ := find_some_avail h
  have hc := congrArg Multiset.card hm
  rw [Multiset.card_cons, Multiset.coe_card, Multiset.coe_card] at hc
  omega

theorem find_none_same {E : Edge} {st st1 : BState}
    (h : findTriangleWithEdge E st = some (none, st1)) :
    availTris st1 = availTris st ∧ st1.nbTavail = st.nbTavail := by
  obtain ⟨h1, h2⟩ := find_none_avail h
  exact ⟨by simp [availTris, h1], h2⟩

theorem attachStep_stored {C : Chain} {E : Edge} {T2 : Tri} {C2 : Chain} {T3 : Tri} {E3 : Edge}
    (h : attachStep C E T2 = some (C2, T3, E3)) :
    ∃ n T2r, C2 = C ++ [(some n, T2r)] ∧ rots T2r = rots T2 := by
  unfold attachStep at h
  split at h
  · exact absurd h (by simp)
  · split at h
    · exact absurd h (by simp)
    · split at h
      · exact absurd h (by simp)
      · rename_i n hn
        split at h
        · exact absurd h (by simp)
        · rename_i T2r hr
          simp only [Option.some.injEq, Prod.mk.injEq] at h
          exact ⟨n, T2r, h.1.symm, rotateTriangleStartEdge_rots hr⟩

theorem chainTris_append_one (C : Chain) (n : Option Nat) (T : Tri) :
    chainTris (C ++ [(n, T)]) = chainTris C ++ [T] := by
  simp [chainTris]

theorem map_rots_append (A B : List Tri) :
    Multiset.map rots (↑(A ++ B) : Multiset Tri)
      = Multiset.map rots (↑A : Multiset Tri) + Multiset.map rots (↑B : Multiset Tri) := by
  rw [← Multiset.coe_add, Multiset.map_add]

/-- Consumption invariant of the inner chain-growing loop: the multiset of
rotation classes stored in the chain plus those still available is
preserved, and the `nbTavail` counter stays in sync. -/
theorem extendChain_stored (fuel : Nat) :
    ∀ st (C : Chain) (T : Tri) (E : Edge) C2 st2,
    extendChain st C T E fuel = some (C2, st2) →
    st.nbTavail = (availTris st).length →
    (Multiset.map rots ↑(chainTris C2) + Multiset.map rots ↑(availTris st2)
        = Multiset.map rots ↑(chainTris C) + Multiset.map rots ↑(availTris st))
      ∧ st2.nbTavail = (availTris st2).length := by
  induction fuel with
  | zero => intro st C T E C2 st2 h _; simp [extendChain] at h
  | succ fuel ih =>
    intro st C T E C2 st2 h hinv
    have key : ∀ (stk stk2 : BState) (Ek : Edge) (T2 : Tri) (C3 : Chain) (T3 : Tri) (E3 : Edge),
        availTris stk = availTris st →
        stk.nbTavail = st.nbTavail →
        findTriangleWithEdge (invertEdge Ek) stk = some (some T2, stk2) →
        attachStep C Ek T2 = some (C3, T3, E3) →
        extendChain stk2 C3 T3 E3 fuel = some (C2, st2) →
        (Multiset.map rots ↑(chainTris C2) + Multiset.map rots ↑(availTris st2)
            = Multiset.map rots ↑(chainTris C) + Multiset.map rots ↑(availTris st))
          ∧ st2.nbTavail = (availTris st2).length := by
      intro stk stk2 Ek T2 C3 T3 E3 hA hN hf ha hrec
      obtain ⟨hm, hn⟩ := find_some_avail hf
      have hinvk : stk.nbTavail = (availTris stk).length := by rw [hN, hA]; exact hinv
      obtain ⟨heq, hinv2⟩ := ih stk2 C3 T3 E3 C2 st2 hrec (find_some_inv hf hinvk)
      obtain ⟨n, T2r, hC3, hrots⟩ := attachStep_stored ha
      refine ⟨?_, hinv2⟩
      rw [heq, hC3, chainTris_append_one, map_rots_append, ← hA, hm]
      simp only [Multiset.map_cons, Multiset.coe_singleton, Multiset.map_singleton, hrots]
      rw [← Multiset.singleton_add, add_assoc]
    unfold extendChain at h
    split at h
    · simp only [Option.some.injEq, Prod.mk.injEq] at h
      obtain ⟨h1, h2⟩ := h
      subst h1; subst h2
      exact ⟨rfl, hinv⟩
    · split at h
      · exact absurd h (by simp)
      · rename_i E1 hE1
        split at h
        · exact absurd h (by simp)
        · rename_i T2 st1 hf1
          split at h
          · exact absurd h (by simp)
          · rename_i C3 T3 E3 ha
            exact key st st1 E1 T2 C3 T3 E3 rfl rfl hf1 ha h
        · rename_i st1 hf1
          obtain ⟨hA1, hN1⟩ := find_none_same hf1
          split at h
          · exact absurd h (by simp)
          · rename_i E2 hE2
            split at h
            · exact absurd h (by simp)
            · rename_i T2 st2x hf2
              split at h
              · exact absurd h (by simp)
              · rename_i C3 T3 E3 ha
                exact key st1 st2x E2 T2 C3 T3 E3 hA1 hN1 hf2 ha h
            · rename_i st2x hf2
              obtain ⟨hA2, hN2⟩ := find_none_same hf2
              split at h
              · simp only [Option.some.injEq, Prod.mk.injEq] at h
                obtain ⟨h1, h2⟩ := h
                subst h1; subst h2
                refine ⟨by rw [hA2, hA1], ?_⟩
                rw [hN2, hN1, hA2, hA1]; exact hinv
              · split at h
                · exact absurd h (by simp)
                · rename_i E3 hE3
                  split at h
                  · exact absurd h (by simp)
                  · rename_i T2 st3 hf3
                    split at h
                    · exact absurd h (by simp)
                    · rename_i C3 T3 E4 ha
                      exact key st2x st3 E3 T2 C3 T3 E4 (by rw [hA2, hA1])
                        (by rw [hN2, hN1]) hf3 ha h
                  · rename_i st3 hf3
                    obtain ⟨hA3, hN3⟩ := find_none_same hf3
                    simp only [Option.some.injEq, Prod.mk.injEq] at h
                    obtain ⟨h1, h2⟩ := h
                    subst h1; subst h2
                    refine ⟨by rw [hA3, hA2, hA1], ?_⟩
                    rw [hN3, hN2, hN1, hA3, hA2, hA1]; exact hinv

theorem fixupChain_rots (C : Chain) :
    Multiset.map rots ↑(chainTris (fixupChain C)) = Multiset.map rots ↑(chainTris C) := by
  match C with
  | [] => rfl
  | [e] => rfl
  | (f0, T0) :: (f1, T1) :: rest =>
    show Multiset.map rots ↑(chainTris
        (if f1 = some 2 then (none, (T0.2.1, T0.2.2, T0.1)) :: (some 0, T1) :: rest
         else (f0, T0) :: (f1, T1) :: rest)) = _
    split_ifs with hf
    · have hT : ((T0.2.1, T0.2.2, T0.1) : Tri) = rot1 T0 := rfl
      simp only [hT, chainTris, List.map_cons, ← Multiset.cons_coe, Multiset.map_cons, rots_rot1]
    · rfl

/-- Consumption invariant of the outer loop: the rotation classes of the
triangles stored across all produced chains are exactly those of the
triangles available when the loop started. -/
theorem buildChains_stored (fuel : Nat) :
    ∀ st R, buildChains st fuel = some R →
    st.nbTavail = (availTris st).length →
    Multiset.map rots ↑(storedTris R) = Multiset.map rots ↑(availTris st) := by
  induction fuel with
  | zero => intro st R h _; simp [buildChains] at h
  | succ fuel ih =>
    intro st R h hinv
    unfold buildChains at h
    split at h
    · exact absurd h (by simp)
    · rename_i hg
      simp only [Option.some.injEq] at h
      subst h
      have h0 := getNext_none_done hg
      have hemp : availTris st = [] := by
        have h1 := hinv; rw [h0] at h1
        exact List.eq_nil_of_length_eq_zero h1.symm
      rw [hemp]
      rfl
    · rename_i T st1 hg
      split at h
      · exact absurd h (by simp)
      · rename_i C st2 he
        split at h
        · exact absurd h (by simp)
        · rename_i R2 hb
          simp only [Option.some.injEq] at h
          subst h
          obtain ⟨hm, hn⟩ := getNext_some_avail hg
          have hinv1 : st1.nbTavail = (availTris st1).length := by
            have hc := congrArg Multiset.card hm
            rw [Multiset.card_cons, Multiset.coe_card, Multiset.coe_card] at hc
            omega
          obtain ⟨heq, hinv2⟩ := extendChain_stored _ st1 _ T (edge T 2) C st2 he hinv1
          have hR2 := ih st2 R2 hb hinv2
          show Multiset.map rots ↑(storedTris (fixupChain C :: R2)) = _
          have hsplit : storedTris (fixupChain C :: R2)
              = chainTris (fixupChain C) ++ storedTris R2 := rfl
          rw [hsplit, map_rots_append, fixupChain_rots, hR2, hm]
          have hC0 : Multiset.map rots ↑(chainTris ([(none, T)] : Chain)) = {rots T} := rfl
          rw [hC0, Multiset.singleton_add] at heq
          simp only [Multiset.map_cons]
          exact heq

/-- Helper: the initial builder state of `reorderObjectTriangles`. -/
theorem availTris_init (obj : List Tri) :
    availTris
      { availT := obj.map some, dic := buildDic obj, firstTavail := 0, nbTavail := obj.length }
      = obj := by
  show (obj.map some).reduceOption = obj
  induction obj with
  | nil => rfl
  | cons a tl ih => simp [List.reduceOption_cons_of_some, ih]

/-- C1. The chains returned by `reorderObjectTriangles` partition the input
triangle list: counting each triangle by its cyclic-rotation class (winding
preserved), the stored triangles across all chains form exactly the input
multiset, and the total stored count equals the input count. -/
theorem C1_partition (obj : List Tri) (R : List Chain)
    (h : reorderObjectTriangles obj = some R) :
    Multiset.map rots ↑(storedTris R) = Multiset.map rots ↑obj
      ∧ (storedTris R).length = obj.length := by
  unfold reorderObjectTriangles at h
  have hinv : (obj.length : Nat) = (availTris
      { availT := obj.map some, dic := buildDic obj, firstTavail := 0,
        nbTavail := obj.length } : List Tri).length := by
    rw [availTris_init]
  have hmain := buildChains_stored (obj.length + 1) _ R h hinv
  rw [availTris_init] at hmain
  refine ⟨hmain, ?_⟩
  have hc := congrArg Multiset.card hmain
  rw [Multiset.card_map, Multiset.card_map, Multiset.coe_card, Multiset.coe_card] at hc
  exact hc

/-- Witness for C1 at a concrete two-triangle object sharing one edge. -/
theorem C1_partition_witness :
    reorderObjectTriangles exObj1 = some exR1
    ∧ (Multiset.map rots ↑(storedTris exR1) = Multiset.map rots ↑exObj1
        ∧ (storedTris exR1).length = exObj1.length) :=
  ⟨by decide, C1_partition exObj1 exR1 (by decide)⟩

/-! ### Adjacency and flag invariants of the chain builder -/

theorem rotateTriangleStartEdge_first {T : Tri} {E : Edge} {T2 : Tri}
    (h : rotateTriangleStartEdge T E = some T2) : (T2.1, T2.2.1) = E := by
  unfold rotateTriangleStartEdge at h
  split_ifs at h with h1 h2 h3 <;> simp only [Option.some.injEq] at h <;> subst h
  · exact h1
  · exact h2
  · exact h3

theorem edge_zero (T : Tri) : edge T 0 = (T.1, T.2.1) := by simp [edge]

theorem attachStep_adj {C : Chain} {E : Edge} {T2 : Tri} {C3 : Chain} {T3 : Tri} {E3 : Edge}
    (h : attachStep C E T2 = some (C3, T3, E3)) :
    ∃ f pT n T2r, C.getLast? = some (f, pT)
      ∧ C3 = C ++ [(some n, T2r)]
      ∧ edge T2r 0 = invertEdge (edge pT (2 - n))
      ∧ (n ≤ 1 ∨ (¬ 1 < C.length ∧ n = 2)) := by
  unfold attachStep at h
  split at h
  · exact absurd h (by simp)
  · rename_i p f pT hL
    split at h
    · exact absurd h (by simp)
    · rename_i hcond
      split at h
      · exact absurd h (by simp)
      · rename_i n hn
        split at h
        · exact absurd h (by simp)
        · rename_i T2r hr
          simp only [Option.some.injEq, Prod.mk.injEq] at h
          obtain ⟨hC3, -, -⟩ := h
          have hfirst := rotateTriangleStartEdge_first hr
          split_ifs at hn with h1 h2 h3
          · simp only [Option.some.injEq] at hn
            subst hn
            refine ⟨f, pT, 1, T2r, hL, hC3.symm, ?_, Or.inl (by omega)⟩
            have he1 : edge pT (2 - 1) = (pT.2.1, pT.2.2) := by simp [edge]
            rw [edge_zero, hfirst, h1, he1]
          · simp only [Option.some.injEq] at hn
            subst hn
            refine ⟨f, pT, 0, T2r, hL, hC3.symm, ?_, Or.inl (by omega)⟩
            have he0 : edge pT (2 - 0) = (pT.2.2, pT.1) := by simp [edge]
            rw [edge_zero, hfirst, h2, he0]
          · simp only [Option.some.injEq] at hn
            subst hn
            have hlen : ¬ 1 < C.length := fun hl => hcond ⟨h3, hl⟩
            refine ⟨f, pT, 2, T2r, hL, hC3.symm, ?_, Or.inr ⟨hlen, rfl⟩⟩
            have he2 : edge pT (2 - 2) = (pT.1, pT.2.1) := by simp [edge]
            rw [edge_zero, hfirst, h3, he2]

theorem chainAdj_append {C : Chain} {f : Option Nat} {pT : Tri} {n : Nat} {T2r : Tri}
    (hC : chainAdj C) (hL : C.getLast? = some (f, pT))
    (hadj : edge T2r 0 = invertEdge (edge pT (2 - n))) :
    chainAdj (C ++ [(some n, T2r)]) := by
  unfold chainAdj at hC ⊢
  rw [List.chain'_append]
  refine ⟨hC, List.chain'_singleton _, ?_⟩
  intro x hx y hy
  rw [hL, Option.mem_some_iff] at hx
  simp only [List.head?_cons, Option.mem_some_iff] at hy
  subst hx; subst hy
  show adjRelB (f, pT) (some n, T2r) = true
  unfold adjRelB
  simpa using hadj

theorem preFlagsOk_append {C : Chain} {n : Nat} {T2r : Tri}
    (hC : preFlagsOk C) (hne : C ≠ [])
    (hn : n ≤ 1 ∨ (¬ 1 < C.length ∧ n = 2)) :
    preFlagsOk (C ++ [(some n, T2r)]) := by
  obtain ⟨h1, h2⟩ := hC
  match C, hne with
  | a :: C2, _ =>
    constructor
    · intro e he
      simp only [List.cons_append, List.tail_cons, List.mem_append, List.mem_singleton] at he
      rcases he with he | he
      · exact h1 e he
      · subst he
        rcases hn with hn | ⟨-, hn⟩
        · interval_cases n
          · exact Or.inl rfl
          · exact Or.inr (Or.inl rfl)
        · subst hn; exact Or.inr (Or.inr rfl)
    · intro e he
      match C2 with
      | [] =>
        simp only [List.cons_append, List.nil_append, List.tail_cons] at he
        simp at he
      | b :: C3 =>
        simp only [List.cons_append, List.tail_cons, List.mem_append, List.mem_singleton] at he
        rcases he with he | he
        · exact h2 e he
        · subst he
          rcases hn with hn | ⟨hlen, -⟩
          · interval_cases n
            · exact Or.inl rfl
            · exact Or.inr rfl
          · exact absurd (by simp only [List.length_cons]; omega) hlen

/-- The chain-shape invariant (adjacency plus flag ranges) is preserved by
the inner loop. -/
theorem extendChain_chainInv (fuel : Nat) :
    ∀ st (C : Chain) (T : Tri) (E : Edge) C2 st2,
    extendChain st C T E fuel = some (C2, st2) →
    C ≠ [] → chainAdj C → preFlagsOk C →
    C2 ≠ [] ∧ chainAdj C2 ∧ preFlagsOk C2 := by
  induction fuel with
  | zero => intro st C T E C2 st2 h _ _ _; simp [extendChain] at h
  | succ fuel ih =>
    intro st C T E C2 st2 h hne hadj hflags
    have key : ∀ (stk2 : BState) (Ek : Edge) (T2 : Tri) (C3 : Chain) (T3 : Tri) (E3 : Edge),
        attachStep C Ek T2 = some (C3, T3, E3) →
        extendChain stk2 C3 T3 E3 fuel = some (C2, st2) →
        C2 ≠ [] ∧ chainAdj C2 ∧ preFlagsOk C2 := by
      intro stk2 Ek T2 C3 T3 E3 ha hrec
      obtain ⟨f, pT, n, T2r, hL, hC3, hadj2, hn⟩ := attachStep_adj ha
      subst hC3
      refine ih stk2 _ T3 E3 C2 st2 hrec (by simp) (chainAdj_append hadj hL hadj2)
        (preFlagsOk_append hflags hne hn)
    unfold extendChain at h
    split at h
    · simp only [Option.some.injEq, Prod.mk.injEq] at h
      obtain ⟨h1, h2⟩ := h
      subst h1; subst h2
      exact ⟨hne, hadj, hflags⟩
    · split at h
      · exact absurd h (by simp)
      · rename_i E1 hE1
        split at h
        · exact absurd h (by simp)
        · rename_i T2 st1 hf1
          split at h
          · exact absurd h (by simp)
          · rename_i C3 T3 E3 ha
            exact key st1 E1 T2 C3 T3 E3 ha h
        · rename_i st1 hf1
          split at h
          · exact absurd h (by simp)
          · rename_i E2 hE2
            split at h
            · exact absurd h (by simp)
            · rename_i T2 st2x hf2
              split at h
              · exact absurd h (by simp)
              · rename_i C3 T3 E3 ha
                exact key st2x E2 T2 C3 T3 E3 ha h
            · rename_i st2x hf2
              split at h
              · simp only [Option.some.injEq, Prod.mk.injEq] at h
                obtain ⟨h1, h2⟩ := h
                subst h1; subst h2
                exact ⟨hne, hadj, hflags⟩
              · split at h
                · exact absurd h (by simp)
                · rename_i E3 hE3
                  split at h
                  · exact absurd h (by simp)
                  · rename_i T2 st3 hf3
                    split at h
                    · exact absurd h (by simp)
                    · rename_i C3 T3 E4 ha
                      exact key st3 E3 T2 C3 T3 E4 ha h
                  · rename_i st3 hf3
                    simp only [Option.some.injEq, Prod.mk.injEq] at h
                    obtain ⟨h1, h2⟩ := h
                    subst h1; subst h2
                    exact ⟨hne, hadj, hflags⟩

theorem fixupChain_adj {C : Chain} (hadj : chainAdj C) : chainAdj (fixupChain C) := by
  match C with
  | [] => exact hadj
  | [e] => exact hadj
  | (f0, T0) :: (f1, T1) :: rest =>
    show chainAdj (if f1 = some 2 then (none, (T0.2.1, T0.2.2, T0.1)) :: (some 0, T1) :: rest
        else (f0, T0) :: (f1, T1) :: rest)
    split_ifs with hf
    · subst hf
      unfold chainAdj at hadj ⊢
      rw [List.chain'_cons] at hadj ⊢
      obtain ⟨hpair, hrest⟩ := hadj
      constructor
      · unfold adjRelB at hpair ⊢
        simp only [beq_iff_eq] at hpair ⊢
        rw [hpair]
        rfl
      · match rest with
        | [] => exact List.chain'_singleton _
        | r0 :: rest2 =>
          rw [List.chain'_cons] at hrest ⊢
          exact ⟨hrest.1, hrest.2⟩
    · exact hadj

theorem fixupChain_flags {C : Chain} (hflags : preFlagsOk C) : chainFlagsOk (fixupChain C) := by
  obtain ⟨h1, h2⟩ := hflags
  match C with
  | [] => intro e he; simp [fixupChain] at he
  | [e] => intro e he; simp [fixupChain, List.tail_cons] at he
  | (f0, T0) :: (f1, T1) :: rest =>
    show chainFlagsOk (if f1 = some 2 then (none, (T0.2.1, T0.2.2, T0.1)) :: (some 0, T1) :: rest
        else (f0, T0) :: (f1, T1) :: rest)
    split_ifs with hf
    · intro e he
      simp only [List.tail_cons, List.mem_cons] at he
      rcases he with he | he
      · subst he; exact Or.inl rfl
      · exact h2 e (by simpa using he)
    · intro e he
      simp only [List.tail_cons, List.mem_cons] at he
      rcases he with he | he
      · subst he
        rcases h1 (f1, T1) (by simp) with hx | hx | hx
        · exact Or.inl hx
        · exact Or.inr hx
        · exact absurd hx hf
      · exact h2 e (by simpa using he)

/-- Every chain produced by the outer loop is adjacency-correct and carries
single-bit flags on its non-first entries. -/
theorem buildChains_chains (fuel : Nat) :
    ∀ st R, buildChains st fuel = some R →
    ∀ C ∈ R, chainAdj C ∧ chainFlagsOk C := by
  induction fuel with
  | zero => intro st R h; simp [buildChains] at h
  | succ fuel ih =>
    intro st R h C hC
    unfold buildChains at h
    split at h
    · exact absurd h (by simp)
    · simp only [Option.some.injEq] at h
      subst h
      simp at hC
    · rename_i T st1 hg
      split at h
      · exact absurd h (by simp)
      · rename_i C0 st2 he
        split at h
        · exact absurd h (by simp)
        · rename_i R2 hb
          simp only [Option.some.injEq] at h
          subst h
          rw [List.mem_cons] at hC
          rcases hC with hC | hC
          · subst hC
            have hinit0 : chainAdj ([(none, T)] : Chain) := List.chain'_singleton _
            have hinit1 : preFlagsOk ([(none, T)] : Chain) := by
              constructor <;> intro e he <;> simp at he
            obtain ⟨-, hadj, hflags⟩ := extendChain_chainInv _ st1 _ T (edge T 2) C0 st2 he
              (by simp) hinit0 hinit1
            exact ⟨fixupChain_adj hadj, fixupChain_flags hflags⟩
          · exact ih st2 R2 hb C hC

/-- C3. In every chain produced by `reorderObjectTriangles`, every pair of
consecutive stored triangles shares a physical edge with inverted
orientation: the first edge of each non-first stored triangle is the inverse
of the predecessor's edge selected by the recorded flag (flag `n` selects
edge `2 - n`); the seed re-rotation fixup preserves this. -/
theorem C3_adjacency (obj : List Tri) (R : List Chain)
    (h : reorderObjectTriangles obj = some R) :
    ∀ C ∈ R, chainAdj C := by
  intro C hC
  exact (buildChains_chains _ _ R h C hC).1

/-- Witness for C3 on the two-triangle example object. -/
theorem C3_adjacency_witness :
    reorderObjectTriangles exObj1 = some exR1 ∧ ∀ C ∈ exR1, chainAdj C :=
  ⟨by decide, C3_adjacency exObj1 exR1 (by decide)⟩

/-- C8. After chain building (including the seed re-rotation fixup), every
non-first entry of every chain carries flag `0` or `1`, so the encoded field
`v + 32768 * flag` fits an unsigned 16-bit value whenever `v < 32768`. -/
theorem C8_flag_bits (obj : List Tri) (R : List Chain)
    (h : reorderObjectTriangles obj = some R) :
    ∀ C ∈ R, ∀ e ∈ C.tail,
      (e.1 = some 0 ∨ e.1 = some 1)
        ∧ ∀ n : Nat, e.1 = some n → ∀ v : Nat, v < 32768 → v + 32768 * n < 65536 := by
  intro C hC e he
  have hf := (buildChains_chains _ _ R h C hC).2 e he
  refine ⟨hf, ?_⟩
  intro n hn v hv
  rcases hf with hx | hx <;> rw [hn] at hx <;>
    simp only [Option.some.injEq] at hx <;> subst hx <;> omega

/-- Witness for C8 on the two-triangle example object. -/
theorem C8_flag_bits_witness :
    reorderObjectTriangles exObj1 = some exR1
      ∧ ∀ C ∈ exR1, ∀ e ∈ C.tail,
        (e.1 = some 0 ∨ e.1 = some 1)
          ∧ ∀ n : Nat, e.1 = some n → ∀ v : Nat, v < 32768 → v + 32768 * n < 65536 :=
  ⟨by decide, C8_flag_bits exObj1 exR1 (by decide)⟩

/-! ### C2: the second rotation IS tried for chains of two or more triangles -/

/-- C2 counterexample. On `exObj2` the source builder extends the
two-triangle chain through the SECOND rotation after the first finds no
neighbour (one chain of three triangles), whereas the claimed
single-rotation policy (`reorderObjectTrianglesSingle`, modelled from the
claim's words) would terminate the chain at two triangles. The claim as
stated is therefore false on the code. -/
theorem C2_counterexample :
    reorderObjectTriangles exObj2 = some exR2
      ∧ reorderObjectTrianglesSingle exObj2 = some exR2s
      ∧ exR2 ≠ exR2s := by
  refine ⟨by decide, by decide, by decide⟩

/-- C2 amended. Once a chain holds at least two triangles, the inner loop
tries exactly TWO edge rotations: the next edge, and on failure the edge
after it; only when both lookups fail does the chain terminate (the third,
wrap-around rotation is reserved for single-triangle chains). -/
theorem C2_two_rotations (fuel : Nat) (st st1 : BState) (C : Chain) (T : Tri) (E E1 E2 : Edge)
    (hC : 1 < C.length) (hmax : C.length ≠ 65535)
    (hE1 : edgeAfter T E = some E1)
    (h1 : findTriangleWithEdge (invertEdge E1) st = some (none, st1))
    (hE2 : edgeAfter T E1 = some E2) :
    extendChain st C T E (fuel + 1) =
      match findTriangleWithEdge (invertEdge E2) st1 with
      | none => none
      | some (some T2, st2) =>
          (match attachStep C E2 T2 with
           | none => none
           | some (C3, T3, E3) => extendChain st2 C3 T3 E3 fuel)
      | some (none, st2) => some (C, st2) := by
  simp only [extendChain]
  rw [if_neg hmax]
  simp only [hE1, h1, hE2]
  split
  · rfl
  · rfl
  · rw [if_pos hC]

/-- Witness for the amended C2 at concrete state, chain, triangle and edges:
the hypotheses hold and the theorem applies. -/
theorem C2_two_rotations_witness :
    (1 < chainW.length ∧ chainW.length ≠ 65535
      ∧ edgeAfter triW edgeW = some (((0, -1, -1), (3, -1, -1)) : Edge)
      ∧ findTriangleWithEdge (invertEdge (((0, -1, -1), (3, -1, -1)) : Edge)) stW
          = some (none, stW1)
      ∧ edgeAfter triW (((0, -1, -1), (3, -1, -1)) : Edge)
          = some (((3, -1, -1), (1, -1, -1)) : Edge))
    ∧ extendChain stW chainW triW edgeW (1 + 1) =
        match findTriangleWithEdge (invertEdge (((3, -1, -1), (1, -1, -1)) : Edge)) stW1 with
        | none => none
        | some (some T2, st2) =>
            (match attachStep chainW (((3, -1, -1), (1, -1, -1)) : Edge) T2 with
             | none => none
             | some (C3, T3, E3) => extendChain st2 C3 T3 E3 1)
        | some (none, st2) => some (chainW, st2) :=
  ⟨⟨by decide, by decide, rfl, rfl, rfl⟩,
    C2_two_rotations 1 stW stW1 chainW triW edgeW
      (((0, -1, -1), (3, -1, -1)) : Edge) (((3, -1, -1), (1, -1, -1)) : Edge)
      (by decide) (by decide) rfl rfl rfl⟩

/-! ### First-use accumulation: membership, nodup, prefix extension -/

theorem mem_addNew (acc : List Int) (a x : Int) :
    x ∈ addNew acc a ↔ x ∈ acc ∨ x = a := by
  unfold addNew
  split_ifs with h
  · constructor
    · exact fun hx => Or.inl hx
    · rintro (hx | hx)
      · exact hx
      · rw [hx]; exact h
  · simp [List.mem_append]

theorem nodup_addNew {acc : List Int} (a : Int) (h : acc.Nodup) : (addNew acc a).Nodup := by
  unfold addNew
  split_ifs with hm
  · exact h
  · simpa [List.nodup_append] using ⟨h, hm⟩

theorem addNew_ext (acc : List Int) (a : Int) : ∃ t, addNew acc a = acc ++ t := by
  unfold addNew
  split_ifs
  · exact ⟨[], by simp⟩
  · exact ⟨[a], rfl⟩

theorem foldl_addNew_mem (s : List Int) :
    ∀ acc x, x ∈ s.foldl addNew acc ↔ x ∈ acc ∨ x ∈ s := by
  induction s with
  | nil => intro acc x; simp
  | cons a s ih =>
    intro acc x
    show x ∈ s.foldl addNew (addNew acc a) ↔ _
    rw [ih, mem_addNew]
    simp only [List.mem_cons]
    tauto

theorem foldl_addNew_nodup (s : List Int) :
    ∀ acc, acc.Nodup → (s.foldl addNew acc).Nodup := by
  induction s with
  | nil => intro acc h; exact h
  | cons a s ih => intro acc h; exact ih _ (nodup_addNew a h)

theorem foldl_addNew_ext (s : List Int) :
    ∀ acc, ∃ t, s.foldl addNew acc = acc ++ t := by
  induction s with
  | nil => intro acc; exact ⟨[], by simp⟩
  | cons a s ih =>
    intro acc
    obtain ⟨t1, ht1⟩ := addNew_ext acc a
    obtain ⟨t2, ht2⟩ := ih (addNew acc a)
    exact ⟨t1 ++ t2, by show s.foldl addNew (addNew acc a) = _; rw [ht2, ht1, List.append_assoc]⟩

theorem firstUse_mem (s : List Int) (x : Int) : x ∈ firstUse s ↔ x ∈ s := by
  unfold firstUse; rw [foldl_addNew_mem]; simp

theorem firstUse_nodup (s : List Int) : (firstUse s).Nodup :=
  foldl_addNew_nodup s [] List.nodup_nil

/-! ### The identity permutation -/

theorem identityPerm_zero : identityPerm 0 = [] := rfl

theorem identityPerm_succ (n : Nat) :
    identityPerm (n + 1) = identityPerm n ++ [(n : Int)] := by
  unfold identityPerm
  rw [List.range_succ, List.map_append]
  rfl

theorem identityPerm_length (n : Nat) : (identityPerm n).length = n := by
  simp [identityPerm]

theorem mem_identityPerm (n : Nat) (z : Int) :
    z ∈ identityPerm n ↔ 0 ≤ z ∧ z < (n : Int) := by
  unfold identityPerm
  simp only [List.mem_map, List.mem_range]
  constructor
  · rintro ⟨j, hj, rfl⟩
    constructor
    · exact Int.natCast_nonneg j
    · exact_mod_cast hj
  · rintro ⟨h0, hn⟩
    refine ⟨z.toNat, ?_, ?_⟩
    · omega
    · omega

theorem identityPerm_nodup (n : Nat) : (identityPerm n).Nodup := by
  unfold identityPerm
  exact (List.nodup_range n).map (fun a b => by exact_mod_cast id)

theorem indexOf_of_getElem? {l : List Int} {j : Nat} {x : Int}
    (hnd : l.Nodup) (h : l[j]? = some x) : l.indexOf x = j := by
  have hj : j < l.length := by
    by_contra hc
    rw [List.getElem?_eq_none (by omega)] at h
    exact absurd h (by simp)
  have hmem : x ∈ l := by
    have := List.getElem?_eq_getElem hj
    rw [this] at h
    simp only [Option.some.injEq] at h
    rw [← h]
    exact l.getElem_mem hj
  have hlt : l.indexOf x < l.length := List.indexOf_lt_length.mpr hmem
  have h1 : l[l.indexOf x] = x := List.getElem_indexOf hlt
  have h2 : l[j] = x := by
    have := List.getElem?_eq_getElem hj
    rw [this] at h
    simpa using h
  exact (@List.Nodup.getElem_inj_iff Int l hnd (l.indexOf x) hlt j hj).mp (h1.trans h2.symm)

theorem indexOf_identityPerm {k j : Nat} (hj : j < k) :
    (identityPerm k).indexOf ((j : Nat) : Int) = j := by
  refine indexOf_of_getElem? (identityPerm_nodup k) ?_
  unfold identityPerm
  rw [List.getElem?_map, List.getElem?_range hj]
  rfl

/-! ### Ranks of first appearance and the trim frontier walk -/

theorem indexOf_foldl_addNew_mem {s acc : List Int} {z : Int} (hz : z ∈ acc) :
    (s.foldl addNew acc).indexOf z = acc.indexOf z := by
  obtain ⟨t, ht⟩ := foldl_addNew_ext s acc
  rw [ht, List.indexOf_append_of_mem hz]

theorem indexOf_foldl_addNew_new {s acc : List Int} {z : Int} (hz : z ∉ acc) :
    (s.foldl addNew (acc ++ [z])).indexOf z = acc.length := by
  obtain ⟨t, ht⟩ := foldl_addNew_ext s (acc ++ [z])
  rw [ht, List.append_assoc, List.indexOf_append_of_not_mem hz]
  simp [List.indexOf_cons_self]

theorem addNew_of_mem {acc : List Int} {z : Int} (hz : z ∈ acc) : addNew acc z = acc := by
  unfold addNew; rw [if_pos hz]

theorem addNew_of_not_mem {acc : List Int} {z : Int} (hz : z ∉ acc) :
    addNew acc z = acc ++ [z] := by
  unfold addNew; rw [if_neg hz]

/-- Walking the rank-renumbered traversal advances the `trim` frontier from
the number of values already seen to the total number of distinct values:
the frontier is never overrun. -/
theorem trimCounter_rank (s : List Int) :
    ∀ acc : List Int,
    trimCounter (s.map (fun z => (((s.foldl addNew acc).indexOf z : Nat) : Int))) acc.length
      = some (s.foldl addNew acc).length := by
  induction s with
  | nil => intro acc; rfl
  | cons z s ih =>
    intro acc
    by_cases hz : z ∈ acc
    · have hfold : (z :: s).foldl addNew acc = s.foldl addNew acc := by
        rw [List.foldl_cons, addNew_of_mem hz]
      have hidx : acc.indexOf z < acc.length := List.indexOf_lt_length.mpr hz
      have hidx2 : (s.foldl addNew acc).indexOf z = acc.indexOf z :=
        indexOf_foldl_addNew_mem hz
      rw [hfold]
      simp only [List.map_cons, trimCounter, hidx2]
      have hc1 : ¬ ((acc.length : Int) < ((acc.indexOf z : Nat) : Int)) := by
        exact_mod_cast Nat.not_lt.mpr (Nat.le_of_lt hidx)
      have hc2 : ¬ (((acc.indexOf z : Nat) : Int) = ((acc.length : Nat) : Int)) := by
        exact_mod_cast Nat.ne_of_lt hidx
      rw [if_neg hc1, if_neg hc2]
      exact ih acc
    · have hfold : (z :: s).foldl addNew acc = s.foldl addNew (acc ++ [z]) := by
        rw [List.foldl_cons, addNew_of_not_mem hz]
      have hidx2 : (s.foldl addNew (acc ++ [z])).indexOf z = acc.length :=
        indexOf_foldl_addNew_new hz
      rw [hfold]
      simp only [List.map_cons, trimCounter, hidx2]
      rw [if_neg (lt_irrefl ((acc.length : Nat) : Int)), if_pos trivial]
      have := ih (acc ++ [z])
      simpa using this

/-- Accumulating first uses over the rank-renumbered traversal yields the
identity permutation on the distinct-value count. -/
theorem foldl_addNew_map_rank (s : List Int) :
    ∀ acc : List Int,
    (s.map (fun z => (((s.foldl addNew acc).indexOf z : Nat) : Int))).foldl addNew
        (identityPerm acc.length)
      = identityPerm (s.foldl addNew acc).length := by
  induction s with
  | nil => intro acc; rfl
  | cons z s ih =>
    intro acc
    by_cases hz : z ∈ acc
    · have hfold : (z :: s).foldl addNew acc = s.foldl addNew acc := by
        rw [List.foldl_cons, addNew_of_mem hz]
      have hidx : acc.indexOf z < acc.length := List.indexOf_lt_length.mpr hz
      have hidx2 : (s.foldl addNew acc).indexOf z = acc.indexOf z :=
        indexOf_foldl_addNew_mem hz
      rw [hfold]
      simp only [List.map_cons, List.foldl_cons, hidx2]
      rw [addNew_of_mem (by rw [mem_identityPerm]; omega)]
      exact ih acc
    · have hfold : (z :: s).foldl addNew acc = s.foldl addNew (acc ++ [z]) := by
        rw [List.foldl_cons, addNew_of_not_mem hz]
      have hidx2 : (s.foldl addNew (acc ++ [z])).indexOf z = acc.length :=
        indexOf_foldl_addNew_new hz
      rw [hfold]
      simp only [List.map_cons, List.foldl_cons, hidx2]
      rw [addNew_of_not_mem (by rw [mem_identityPerm]; omega), ← identityPerm_succ]
      have := ih (acc ++ [z])
      simpa using this

/-! ### Permutation counting (pigeonhole over `{0, ..., n-1}`) -/

theorem toFinset_subset_rangeImage {vi : List Int} {n : Nat}
    (hin : ∀ z ∈ vi, 0 ≤ z ∧ z < (n : Int)) :
    vi.toFinset ⊆ (Finset.range n).image (fun (j : Nat) => (j : Int)) := by
  intro z hz
  rw [List.mem_toFinset] at hz
  obtain ⟨h0, h1⟩ := hin z hz
  rw [Finset.mem_image]
  exact ⟨z.toNat, Finset.mem_range.mpr (by omega), by omega⟩

theorem rangeImage_card (n : Nat) :
    ((Finset.range n).image (fun (j : Nat) => (j : Int))).card = n := by
  rw [Finset.card_image_of_injective _ (fun a b => by exact_mod_cast id), Finset.card_range]

theorem nodup_range_length_le {vi : List Int} {n : Nat} (hnd : vi.Nodup)
    (hin : ∀ z ∈ vi, 0 ≤ z ∧ z < (n : Int)) : vi.length ≤ n := by
  have h1 : vi.toFinset.card = vi.length := List.toFinset_card_of_nodup hnd
  have h2 := Finset.card_le_card (toFinset_subset_rangeImage hin)
  rw [h1, rangeImage_card] at h2
  exact h2

theorem nodup_range_cover_length_eq {vi : List Int} {n : Nat} (hnd : vi.Nodup)
    (hin : ∀ z ∈ vi, 0 ≤ z ∧ z < (n : Int))
    (hcov : ∀ j : Nat, j < n → ((j : Nat) : Int) ∈ vi) : vi.length = n := by
  have h1 : vi.toFinset.card = vi.length := List.toFinset_card_of_nodup hnd
  have hsub2 : (Finset.range n).image (fun (j : Nat) => (j : Int)) ⊆ vi.toFinset := by
    intro z hz
    rw [Finset.mem_image] at hz
    obtain ⟨j, hj, rfl⟩ := hz
    rw [List.mem_toFinset]
    exact hcov j (Finset.mem_range.mp hj)
  have heq := Finset.Subset.antisymm (toFinset_subset_rangeImage hin) hsub2
  have := congrArg Finset.card heq
  rw [h1, rangeImage_card] at this
  exact this

/-! ### The validation loop -/

theorem checkPerm_iff (n : Nat) :
    ∀ (l seen : List Int),
    checkPerm n seen l = true ↔
      ((∀ z ∈ l, 0 ≤ z ∧ z < (n : Int) ∧ z ∉ seen) ∧ l.Nodup ∧ seen.length + l.length = n) := by
  intro l
  induction l with
  | nil =>
    intro seen
    simp only [checkPerm, beq_iff_eq, List.not_mem_nil, List.nodup_nil, List.length_nil]
    constructor
    · intro h; exact ⟨by simp, trivial, by omega⟩
    · rintro ⟨-, -, h⟩; omega
  | cons i rest ih =>
    intro seen
    simp only [checkPerm]
    split_ifs with h1 h2 h3
    · simp only [false_iff]
      rintro ⟨hall, -, -⟩
      obtain ⟨h0, -, -⟩ := hall i (List.mem_cons_self i rest)
      omega
    · simp only [false_iff]
      rintro ⟨hall, -, -⟩
      obtain ⟨-, h0, -⟩ := hall i (List.mem_cons_self i rest)
      omega
    · simp only [false_iff]
      rintro ⟨hall, -, -⟩
      obtain ⟨-, -, h0⟩ := hall i (List.mem_cons_self i rest)
      exact h0 h3
    · rw [ih (i :: seen)]
      constructor
      · rintro ⟨hall, hnd, hlen⟩
        refine ⟨?_, ?_, ?_⟩
        · intro z hz
          rw [List.mem_cons] at hz
          rcases hz with hz | hz
          · subst hz; exact ⟨by omega, by omega, h3⟩
          · obtain ⟨a, b, c⟩ := hall z hz
            exact ⟨a, b, fun hc => c (List.mem_cons_of_mem i hc)⟩
        · rw [List.nodup_cons]
          refine ⟨fun hc => ?_, hnd⟩
          obtain ⟨-, -, c⟩ := hall i hc
          exact c (List.mem_cons_self i seen)
        · simp only [List.length_cons] at hlen ⊢
          omega
      · rintro ⟨hall, hnd, hlen⟩
        rw [List.nodup_cons] at hnd
        refine ⟨?_, hnd.2, ?_⟩
        · intro z hz
          obtain ⟨a, b, c⟩ := hall z (List.mem_cons_of_mem i hz)
          refine ⟨a, b, ?_⟩
          rw [List.mem_cons]
          rintro (hc | hc)
          · subst hc; exact hnd.1 hz
          · exact c hc
        · simp only [List.length_cons] at hlen ⊢
          omega

/-! ### The inverse permutation and the array permutation step -/

theorem set_self {α : Type} : ∀ (l : List α) (i : Nat) (x : α),
    l[i]? = some x → l.set i x = l := by
  intro l
  induction l with
  | nil => intro i x h; simp at h
  | cons a tl ih =>
    intro i x h
    cases i with
    | zero =>
      simp only [List.getElem?_cons_zero, Option.some.injEq] at h
      rw [← h]
      rfl
    | succ i =>
      simp only [List.getElem?_cons_succ] at h
      rw [List.set_cons_succ, ih i x h]

theorem foldl_set_length : ∀ (L : List (Nat × Int)) (init : List Int),
    (L.foldl (fun iv p => iv.set p.2.toNat ((p.1 : Nat) : Int)) init).length = init.length := by
  intro L
  induction L with
  | nil => intro init; rfl
  | cons p L ih => intro init; rw [List.foldl_cons, ih, List.length_set]

theorem foldl_set_untouched : ∀ (L : List (Nat × Int)) (init : List Int) (k : Nat),
    (∀ p ∈ L, p.2.toNat ≠ k) →
    (L.foldl (fun iv p => iv.set p.2.toNat ((p.1 : Nat) : Int)) init)[k]? = init[k]? := by
  intro L
  induction L with
  | nil => intro init k _; rfl
  | cons p L ih =>
    intro init k hk
    rw [List.foldl_cons, ih _ _ (fun q hq => hk q (List.mem_cons_of_mem p hq)),
      List.getElem?_set_ne (hk p (List.mem_cons_self p L))]

theorem foldl_set_lookup : ∀ (L : List (Nat × Int)) (init : List Int) (j : Nat) (a : Int),
    (j, a) ∈ L → (∀ p ∈ L, p.2.toNat = a.toNat → p = (j, a)) → a.toNat < init.length →
    (L.foldl (fun iv p => iv.set p.2.toNat ((p.1 : Nat) : Int)) init)[a.toNat]?
      = some ((j : Nat) : Int) := by
  intro L
  induction L with
  | nil => intro init j a h _ _; simp at h
  | cons p0 L ih =>
    intro init j a hmem huniq hlt
    rw [List.foldl_cons]
    by_cases hmem2 : (j, a) ∈ L
    · exact ih _ j a hmem2 (fun q hq => huniq q (List.mem_cons_of_mem p0 hq))
        (by rw [List.length_set]; exact hlt)
    · have hp0 : p0 = (j, a) := by
        rw [List.mem_cons] at hmem
        rcases hmem with h | h
        · exact h.symm
        · exact absurd h hmem2
      subst hp0
      rw [foldl_set_untouched L _ _ (fun q hq hqa => hmem2 (huniq q
        (List.mem_cons_of_mem _ hq) hqa ▸ hq))]
      exact List.getElem?_set_self hlt

theorem invperm_length (vi : List Int) : (invperm vi).length = vi.length :=
  foldl_set_length vi.enum vi

theorem pyGet_invperm {vi : List Int} {z : Int} (hnd : vi.Nodup)
    (hin : ∀ y ∈ vi, 0 ≤ y ∧ y < (vi.length : Int)) (hz : z ∈ vi) :
    pyGet (invperm vi) z = some ((vi.indexOf z : Nat) : Int) := by
  have h0 : 0 ≤ z := (hin z hz).1
  have hj : vi[vi.indexOf z]? = some z := List.getElem?_indexOf hz
  have hmemE : (vi.indexOf z, z) ∈ vi.enum := by
    rw [List.mk_mem_enum_iff_getElem?]
    exact hj
  have huniq : ∀ p ∈ vi.enum, p.2.toNat = z.toNat → p = (vi.indexOf z, z) := by
    rintro ⟨i, y⟩ hp hty
    rw [List.mk_mem_enum_iff_getElem?] at hp
    have hymem : y ∈ vi := by
      have hi : i < vi.length := by
        by_contra hc
        rw [List.getElem?_eq_none (by omega)] at hp
        exact absurd hp (by simp)
      have := List.getElem?_eq_getElem hi
      rw [this] at hp
      simp only [Option.some.injEq] at hp
      rw [← hp]
      exact vi.getElem_mem hi
    have hy0 : 0 ≤ y := (hin y hymem).1
    have hyz : y = z := by omega
    subst hyz
    have := indexOf_of_getElem? hnd hp
    rw [this]
  have hltN : z.toNat < vi.length := by
    have := (hin z hz).2
    omega
  have hlook := foldl_set_lookup vi.enum vi (vi.indexOf z) z hmemE huniq hltN
  unfold pyGet
  rw [if_pos h0]
  rw [invperm]
  exact hlook

theorem identityPerm_getElem? {n i : Nat} (hi : i < n) :
    (identityPerm n)[i]? = some ((i : Nat) : Int) := by
  unfold identityPerm
  rw [List.getElem?_map, List.getElem?_range hi]
  rfl

theorem pyGet_invperm_identity {k : Nat} {z : Int} (h0 : 0 ≤ z) (hk : z < (k : Int)) :
    pyGet (invperm (identityPerm k)) z = some z := by
  have hz : z ∈ identityPerm k := (mem_identityPerm k z).mpr ⟨h0, hk⟩
  have := pyGet_invperm (identityPerm_nodup k)
    (fun y hy => by rw [identityPerm_length]; exact (mem_identityPerm k y).mp hy) hz
  rw [this]
  have hzn : z = ((z.toNat : Nat) : Int) := by omega
  rw [hzn, indexOf_identityPerm (by omega)]

theorem permuteArray_aux {α : Type} (ar : List α) :
    ∀ (L : List (Nat × Int)) (init : List α),
    init.length = ar.length →
    (∀ p ∈ L, p.1 < ar.length ∧ 0 ≤ p.2 ∧ p.2 < (ar.length : Int)) →
    ∃ out, (L.foldlM (fun newar p => do
        let x ← pyGet ar p.2
        pySet newar p.1 x) init) = some out
      ∧ out.length = ar.length := by
  intro L
  induction L with
  | nil => intro init hl _; exact ⟨init, rfl, hl⟩
  | cons p L ih =>
    intro init hl hp
    obtain ⟨h1, h2, h3⟩ := hp p (List.mem_cons_self p L)
    have hin : p.2.toNat < ar.length := by omega
    obtain ⟨x0, hget⟩ : ∃ x0, pyGet ar p.2 = some x0 := by
      refine ⟨ar.get ⟨p.2.toNat, hin⟩, ?_⟩
      unfold pyGet
      rw [if_pos h2, List.getElem?_eq_getElem hin]
      rfl
    have hset : pySet init p.1 x0 = some (init.set p.1 x0) := by
      unfold pySet
      rw [if_pos (by omega : p.1 < init.length)]
    obtain ⟨out, hout, hlen⟩ := ih (init.set p.1 x0)
      (by rw [List.length_set]; exact hl)
      (fun q hq => hp q (List.mem_cons_of_mem p hq))
    refine ⟨out, ?_, hlen⟩
    rw [List.foldlM_cons]
    show ((pyGet ar p.2).bind (fun x => pySet init p.1 x)).bind _ = some out
    rw [hget, Option.some_bind, hset, Option.some_bind]
    exact hout

theorem permuteArray_some {α : Type} {vi : List Int} {ar : List α}
    (hlen : vi.length = ar.length)
    (hin : ∀ v ∈ vi, 0 ≤ v ∧ v < (ar.length : Int)) :
    ∃ out, permuteArray vi ar = some out ∧ out.length = ar.length := by
  refine permuteArray_aux ar vi.enum ar rfl ?_
  rintro ⟨i, v⟩ hp
  rw [List.mk_mem_enum_iff_getElem?] at hp
  have hi : i < vi.length := by
    by_contra hc
    rw [List.getElem?_eq_none (by omega)] at hp
    exact absurd hp (by simp)
  have hv : v ∈ vi := by
    have := List.getElem?_eq_getElem hi
    rw [this] at hp
    simp only [Option.some.injEq] at hp
    rw [← hp]
    exact vi.getElem_mem hi
  exact ⟨by omega, hin v hv⟩

theorem permuteArray_identity {α : Type} (ar : List α) :
    permuteArray (identityPerm ar.length) ar = some ar := by
  have key : ∀ (L : List (Nat × Int)),
      (∀ p ∈ L, p.2 = ((p.1 : Nat) : Int) ∧ p.1 < ar.length) →
      (L.foldlM (fun newar p => do
          let x ← pyGet ar p.2
          pySet newar p.1 x) ar) = some ar := by
    intro L
    induction L with
    | nil => intro _; rfl
    | cons p L ih =>
      intro hp
      obtain ⟨hv, hlt⟩ := hp p (List.mem_cons_self p L)
      have hget : pyGet ar p.2 = some (ar.get ⟨p.1, hlt⟩) := by
        unfold pyGet
        rw [hv, if_pos (Int.natCast_nonneg p.1)]
        have : ((p.1 : Nat) : Int).toNat = p.1 := by omega
        rw [this, List.getElem?_eq_getElem hlt]
        rfl
      have hset : pySet ar p.1 (ar.get ⟨p.1, hlt⟩) = some ar := by
        unfold pySet
        rw [if_pos hlt, set_self ar p.1 _ (by rw [List.getElem?_eq_getElem hlt]; rfl)]
      rw [List.foldlM_cons]
      show ((pyGet ar p.2).bind (fun x => pySet ar p.1 x)).bind _ = some ar
      rw [hget, Option.some_bind, hset, Option.some_bind]
      exact ih (fun q hq => hp q (List.mem_cons_of_mem p hq))
  refine key _ ?_
  rintro ⟨i, v⟩ hp
  rw [List.mk_mem_enum_iff_getElem?] at hp
  have hi : i < (identityPerm ar.length).length := by
    by_contra hc
    rw [List.getElem?_eq_none (by omega)] at hp
    exact absurd hp (by simp)
  rw [identityPerm_length] at hi
  rw [identityPerm_getElem? hi] at hp
  simp only [Option.some.injEq] at hp
  exact ⟨hp.symm, hi⟩

/-! ### Rewriting the chains through the inverse permutation -/

theorem mapM_eq_map {α β : Type} (f : α → Option β) (g : α → β) :
    ∀ l : List α, (∀ x ∈ l, f x = some (g x)) → l.mapM f = some (l.map g) := by
  intro l
  induction l with
  | nil => intro _; rfl
  | cons a l ih =>
    intro h
    rw [List.mapM_cons, h a (List.mem_cons_self a l),
      ih (fun x hx => h x (List.mem_cons_of_mem a hx))]
    rfl

theorem mapM_congr {α β : Type} (f h : α → Option β) :
    ∀ l : List α, (∀ x ∈ l, f x = h x) → l.mapM f = l.mapM h := by
  intro l
  induction l with
  | nil => intro _; rfl
  | cons a l ih =>
    intro hc
    rw [List.mapM_cons, List.mapM_cons, hc a (List.mem_cons_self a l),
      ih (fun x hx => hc x (List.mem_cons_of_mem a hx))]

theorem mapM_map_comp {α β γ : Type} (f : α → β) (g : β → Option γ) :
    ∀ l : List α, (l.map f).mapM g = l.mapM (fun x => g (f x)) := by
  intro l
  induction l with
  | nil => rfl
  | cons a l ih => rw [List.map_cons, List.mapM_cons, List.mapM_cons, ih]

theorem flatten_map {α β : Type} (g : α → β) :
    ∀ parts : List (List α), (parts.map (List.map g)).flatten = parts.flatten.map g := by
  intro parts
  induction parts with
  | nil => rfl
  | cons p parts ih =>
    simp only [List.map_cons, List.flatten_cons, List.map_append, ih]

theorem tagComp_mapTag_same (g : Int → Int) {index : Nat} (hidx : index < 3) (a : Attr) :
    tagComp (mapTag g index a) index = g (tagComp a index) := by
  interval_cases index <;> simp [tagComp, mapTag]

theorem tagComp_mapTag_ne (g : Int → Int) {index index2 : Nat} (hidx : index < 3)
    (hidx2 : index2 < 3) (hne : index2 ≠ index) (a : Attr) :
    tagComp (mapTag g index a) index2 = tagComp a index2 := by
  interval_cases index <;> interval_cases index2 <;> simp_all [tagComp, mapTag]

theorem chI_eq {iv : List Int} {g : Int → Int} {index : Nat} (hidx : index < 3) (a : Attr)
    (hget : pyGet iv (tagComp a index) = some (g (tagComp a index))) :
    chI a index iv = some (mapTag g index a) := by
  interval_cases index <;>
    simp_all [chI, tagComp, mapTag]

theorem chTri_eq {iv : List Int} {g : Int → Int} {index : Nat} (hidx : index < 3) (T : Tri)
    (h1 : pyGet iv (tagComp T.1 index) = some (g (tagComp T.1 index)))
    (h2 : pyGet iv (tagComp T.2.1 index) = some (g (tagComp T.2.1 index)))
    (h3 : pyGet iv (tagComp T.2.2 index) = some (g (tagComp T.2.2 index))) :
    chTri T index iv = some (mapTag g index T.1, mapTag g index T.2.1, mapTag g index T.2.2) := by
  unfold chTri
  rw [chI_eq hidx _ h1, chI_eq hidx _ h2, chI_eq hidx _ h3]
  rfl

theorem tag_mem_allComps (index : Nat) {R : List (List Chain)} {O : List Chain} {C : Chain}
    {e : Entry} (hO : O ∈ R) (hC : C ∈ O) (he : e ∈ C) :
    tagComp e.2.1 index ∈ allComps index R
      ∧ tagComp e.2.2.1 index ∈ allComps index R
      ∧ tagComp e.2.2.2 index ∈ allComps index R := by
  unfold allComps
  refine ⟨?_, ?_, ?_⟩ <;>
  · rw [List.mem_flatMap]
    refine ⟨O, hO, ?_⟩
    rw [List.mem_flatMap]
    refine ⟨C, hC, ?_⟩
    rw [List.mem_flatMap]
    exact ⟨e, he, by simp⟩

/-- When every stored tag value is in the domain of the lookup table, the
chain-rewrite pass of `reorderArray` succeeds and equals the pure
`mapChains`. -/
theorem reorderArray_chains {iv : List Int} {g : Int → Int} {index : Nat} (hidx : index < 3)
    (R : List (List Chain))
    (hget : ∀ z ∈ allComps index R, pyGet iv z = some (g z)) :
    R.mapM (fun O => O.mapM (fun C => C.mapM (fun e => do
        let T2 ← chTri e.2 index iv
        some (e.1, T2))))
      = some (mapChains g index R) := by
  unfold mapChains
  refine mapM_eq_map _ _ R ?_
  intro O hO
  refine mapM_eq_map _ _ O ?_
  intro C hC
  refine mapM_eq_map _ _ C ?_
  intro e he
  obtain ⟨m1, m2, m3⟩ := tag_mem_allComps index hO hC he
  rw [chTri_eq hidx e.2 (hget _ m1) (hget _ m2) (hget _ m3)]
  rfl

theorem chainSeq_entryMap_same {g : Int → Int} {index : Nat} (hidx : index < 3) (C : Chain)
    {p : List Int} (hp : chainSeq index C = some p) :
    chainSeq index (C.map (entryMap g index)) = some (p.map g) := by
  match C with
  | [] => simp [chainSeq] at hp
  | (f, T) :: rest =>
    simp only [chainSeq, Option.some.injEq] at hp
    subst hp
    simp only [List.map_cons, chainSeq, entryMap, Option.some.injEq]
    rw [tagComp_mapTag_same g hidx, tagComp_mapTag_same g hidx, tagComp_mapTag_same g hidx]
    simp only [List.map_append, List.map_map, List.map_cons, List.map_nil]
    congr 2
    funext e
    show tagComp (mapTag g index e.2.2.2) index = g (tagComp e.2.2.2 index)
    exact tagComp_mapTag_same g hidx _

theorem chainSeq_entryMap_ne {g : Int → Int} {index index2 : Nat} (hidx : index < 3)
    (hidx2 : index2 < 3) (hne : index2 ≠ index) (C : Chain) :
    chainSeq index2 (C.map (entryMap g index)) = chainSeq index2 C := by
  match C with
  | [] => rfl
  | (f, T) :: rest =>
    simp only [List.map_cons, chainSeq, entryMap]
    rw [tagComp_mapTag_ne g hidx hidx2 hne, tagComp_mapTag_ne g hidx hidx2 hne,
      tagComp_mapTag_ne g hidx hidx2 hne]
    simp only [List.map_map, Option.some.injEq]
    congr 2
    funext e
    show tagComp (mapTag g index e.2.2.2) index2 = tagComp e.2.2.2 index2
    exact tagComp_mapTag_ne g hidx hidx2 hne _

theorem mapChains_flat (g : Int → Int) (index : Nat) (R : List (List Chain)) :
    (mapChains g index R).flatMap (fun O => O)
      = (R.flatMap (fun O => O)).map (fun C => C.map (entryMap g index)) := by
  unfold mapChains entryMap
  induction R with
  | nil => rfl
  | cons O R ih => simp_all [List.flatMap_cons]

/-- The traversal over the rewritten chains is the pointwise image of the
original traversal. -/
theorem travSeq_mapChains {g : Int → Int} {index : Nat} (hidx : index < 3)
    {R : List (List Chain)} {s : List Int} (hs : travSeq index R = some s) :
    travSeq index (mapChains g index R) = some (s.map g) := by
  unfold travSeq at hs ⊢
  rw [mapChains_flat, mapM_map_comp]
  match hparts : (R.flatMap (fun O => O)).mapM (chainSeq index) with
  | none => rw [hparts] at hs; exact absurd hs (by simp)
  | some parts =>
    rw [hparts] at hs
    have hs2 : parts.flatten = s := by
      have h3 : (some parts.flatten : Option (List Int)) = some s := hs
      simpa using h3
    have key : ∀ (L : List Chain) (ps : List (List Int)),
        L.mapM (chainSeq index) = some ps →
        L.mapM (fun C => chainSeq index (C.map (entryMap g index)))
          = some (ps.map (List.map g)) := by
      intro L
      induction L with
      | nil =>
        intro ps h
        simp only [List.mapM_nil, Option.pure_def, Option.some.injEq] at h
        subst h
        rfl
      | cons C L ih =>
        intro ps h
        rw [List.mapM_cons] at h ⊢
        match hC : chainSeq index C with
        | none => rw [hC] at h; exact absurd h (by simp)
        | some p =>
          rw [hC] at h
          match hL : L.mapM (chainSeq index) with
          | none => rw [hL] at h; simp at h
          | some ps2 =>
            rw [hL] at h
            have h2 : ps = p :: ps2 := by
              have h3 : (some (p :: ps2) : Option (List (List Int))) = some ps := h
              simpa using h3.symm
            subst h2
            rw [chainSeq_entryMap_same hidx C hC, ih ps2 hL]
            rfl
    rw [key _ parts hparts]
    show (some ((parts.map (List.map g)).flatten) : Option (List Int)) = some (s.map g)
    rw [flatten_map, hs2]

/-- A rewrite at one component leaves the traversals of the other
components unchanged. -/
theorem travSeq_mapChains_ne {g : Int → Int} {index index2 : Nat} (hidx : index < 3)
    (hidx2 : index2 < 3) (hne : index2 ≠ index) (R : List (List Chain)) :
    travSeq index2 (mapChains g index R) = travSeq index2 R := by
  unfold travSeq
  rw [mapChains_flat, mapM_map_comp]
  rw [mapM_congr _ (chainSeq index2) _
    (fun C _ => chainSeq_entryMap_ne hidx hidx2 hne C)]

theorem allComps_mapChains (g : Int → Int) {index : Nat} (hidx : index < 3)
    (R : List (List Chain)) :
    allComps index (mapChains g index R) = (allComps index R).map g := by
  unfold allComps mapChains
  induction R with
  | nil => rfl
  | cons O R ih =>
    simp only [List.map_cons, List.flatMap_cons, List.map_append]
    rw [ih]
    congr 1
    induction O with
    | nil => rfl
    | cons C O ihO =>
      simp only [List.map_cons, List.flatMap_cons, List.map_append]
      rw [ihO]
      congr 1
      induction C with
      | nil => rfl
      | cons e C ihC =>
        simp only [List.map_cons, List.flatMap_cons, List.map_append]
        rw [ihC]
        congr 1
        simp only [List.map_cons, List.map_nil]
        rw [tagComp_mapTag_same g hidx, tagComp_mapTag_same g hidx, tagComp_mapTag_same g hidx]

/-! ### Success of `orderByFirstUse` under in-bounds references -/

theorem mapM_mem {α β : Type} (f : α → Option β) :
    ∀ (l : List α) (ps : List β), l.mapM f = some ps → ∀ p ∈ ps, ∃ x ∈ l, f x = some p := by
  intro l
  induction l with
  | nil =>
    intro ps h p hp
    simp only [List.mapM_nil, Option.pure_def, Option.some.injEq] at h
    subst h
    simp at hp
  | cons a l ih =>
    intro ps h p hp
    rw [List.mapM_cons] at h
    match ha : f a with
    | none => rw [ha] at h; exact absurd h (by simp)
    | some b =>
      rw [ha] at h
      match hl : l.mapM f with
      | none => rw [hl] at h; simp at h
      | some bs =>
        rw [hl] at h
        have h2 : ps = b :: bs := by
          have h3 : (some (b :: bs) : Option (List β)) = some ps := h
          simpa using h3.symm
        subst h2
        rw [List.mem_cons] at hp
        rcases hp with hp | hp
        · exact ⟨a, List.mem_cons_self a l, by rw [ha, hp]⟩
        · obtain ⟨x, hx, hfx⟩ := ih bs hl p hp
          exact ⟨x, List.mem_cons_of_mem a hx, hfx⟩

theorem chainSeq_values {index : Nat} {C : Chain} {p : List Int}
    (hp : chainSeq index C = some p) :
    ∀ z ∈ p, ∃ e ∈ C, z = tagComp e.2.1 index ∨ z = tagComp e.2.2.1 index
      ∨ z = tagComp e.2.2.2 index := by
  match C with
  | [] => simp [chainSeq] at hp
  | (f, T) :: rest =>
    simp only [chainSeq, Option.some.injEq] at hp
    subst hp
    intro z hz
    simp only [List.cons_append, List.nil_append, List.mem_cons, List.mem_append,
      List.mem_map] at hz
    rcases hz with hz | hz | hz | hz
    · exact ⟨(f, T), List.mem_cons_self _ _, Or.inl hz⟩
    · exact ⟨(f, T), List.mem_cons_self _ _, Or.inr (Or.inl hz)⟩
    · exact ⟨(f, T), List.mem_cons_self _ _, Or.inr (Or.inr hz)⟩
    · obtain ⟨e, he, hez⟩ := hz
      exact ⟨e, List.mem_cons_of_mem _ he, Or.inr (Or.inr hez.symm)⟩

theorem travSeq_subset_allComps {index : Nat} {R : List (List Chain)} {s : List Int}
    (hs : travSeq index R = some s) : ∀ z ∈ s, z ∈ allComps index R := by
  intro z hz
  unfold travSeq at hs
  match hparts : (R.flatMap (fun O => O)).mapM (chainSeq index) with
  | none => rw [hparts] at hs; exact absurd hs (by simp)
  | some parts =>
    rw [hparts] at hs
    have hs2 : parts.flatten = s := by
      have h3 : (some parts.flatten : Option (List Int)) = some s := hs
      simpa using h3
    rw [← hs2] at hz
    rw [List.mem_flatten] at hz
    obtain ⟨p, hpmem, hzp⟩ := hz
    obtain ⟨C, hCmem, hCp⟩ := mapM_mem _ _ _ hparts p hpmem
    rw [List.mem_flatMap] at hCmem
    obtain ⟨O, hO, hC⟩ := hCmem
    obtain ⟨e, he, hcase⟩ := chainSeq_values hCp z hzp
    obtain ⟨m1, m2, m3⟩ := tag_mem_allComps index hO hC he
    rcases hcase with h | h | h <;> rw [h]
    · exact m1
    · exact m2
    · exact m3

theorem nodup_range_full {vi : List Int} {n : Nat} (hnd : vi.Nodup)
    (hin : ∀ z ∈ vi, 0 ≤ z ∧ z < (n : Int)) (hlen : vi.length = n) :
    ∀ j : Nat, j < n → ((j : Nat) : Int) ∈ vi := by
  intro j hj
  have h1 : vi.toFinset.card = vi.length := List.toFinset_card_of_nodup hnd
  have heq : vi.toFinset = (Finset.range n).image (fun (j : Nat) => (j : Int)) := by
    refine Finset.eq_of_subset_of_card_le (toFinset_subset_rangeImage hin) ?_
    rw [rangeImage_card, h1, hlen]
  have : ((j : Nat) : Int) ∈ vi.toFinset := by
    rw [heq, Finset.mem_image]
    exact ⟨j, Finset.mem_range.mpr hj, rfl⟩
  rwa [List.mem_toFinset] at this

theorem mem_unreferencedTail {n : Nat} {vi : List Int} {z : Int} :
    z ∈ unreferencedTail n vi ↔ (0 ≤ z ∧ z < (n : Int) ∧ z ∉ vi) := by
  unfold unreferencedTail
  rw [List.mem_filter]
  simp only [List.mem_map, List.mem_range, decide_eq_true_eq]
  constructor
  · rintro ⟨⟨j, hj, rfl⟩, hnm⟩
    exact ⟨Int.natCast_nonneg j, by exact_mod_cast hj, hnm⟩
  · rintro ⟨h0, hn, hnm⟩
    exact ⟨⟨z.toNat, by omega, by omega⟩, hnm⟩

theorem unreferencedTail_nodup (n : Nat) (vi : List Int) : (unreferencedTail n vi).Nodup := by
  unfold unreferencedTail
  exact (identityPerm_nodup n).filter _

/-- Under in-bounds, nonempty references, `orderByFirstUse` succeeds and the
returned list extends the first-use list to a permutation of the whole
array domain. -/
theorem orderByFirstUse_spec {α : Type} {ar : List α} {R : List (List Chain)} {index : Nat}
    {s : List Int} (hs : travSeq index R = some s) (hsne : s ≠ [])
    (hbound : ∀ z ∈ s, 0 ≤ z ∧ z < (ar.length : Int)) :
    ∃ vi2, orderByFirstUse ar R index = some vi2
      ∧ (∃ t, vi2 = firstUse s ++ t)
      ∧ vi2.length = ar.length ∧ vi2.Nodup
      ∧ (∀ z ∈ vi2, 0 ≤ z ∧ z < (ar.length : Int))
      ∧ (∀ j : Nat, j < ar.length → ((j : Nat) : Int) ∈ vi2) := by
  have harpos : 0 < ar.length := by
    obtain ⟨z0, hz0⟩ := List.exists_mem_of_ne_nil s hsne
    have := (hbound z0 hz0).2
    have := (hbound z0 hz0).1
    omega
  have hvnodup : (firstUse s).Nodup := firstUse_nodup s
  have hvbound : ∀ z ∈ firstUse s, 0 ≤ z ∧ z < (ar.length : Int) := by
    intro z hz
    exact hbound z ((firstUse_mem s z).mp hz)
  have hvlen : (firstUse s).length ≤ ar.length := nodup_range_length_le hvnodup hvbound
  set vi2 : List Int :=
    if (firstUse s).length < ar.length
    then firstUse s ++ unreferencedTail ar.length (firstUse s)
    else firstUse s with hvi2
  have hext : ∃ t, vi2 = firstUse s ++ t := by
    rw [hvi2]
    split_ifs
    · exact ⟨_, rfl⟩
    · exact ⟨[], by simp⟩
  have hnodup2 : vi2.Nodup := by
    rw [hvi2]
    split_ifs
    · rw [List.nodup_append]
      refine ⟨hvnodup, unreferencedTail_nodup _ _, ?_⟩
      intro z hz hz2
      exact (mem_unreferencedTail.mp hz2).2.2 hz
    · exact hvnodup
  have hbound2 : ∀ z ∈ vi2, 0 ≤ z ∧ z < (ar.length : Int) := by
    rw [hvi2]
    split_ifs
    · intro z hz
      rw [List.mem_append] at hz
      rcases hz with hz | hz
      · exact hvbound z hz
      · obtain ⟨a, b, -⟩ := mem_unreferencedTail.mp hz
        exact ⟨a, b⟩
    · exact hvbound
  have hcov2 : ∀ j : Nat, j < ar.length → ((j : Nat) : Int) ∈ vi2 := by
    rw [hvi2]
    split_ifs with hlt
    · intro j hj
      rw [List.mem_append]
      by_cases hm : ((j : Nat) : Int) ∈ firstUse s
      · exact Or.inl hm
      · exact Or.inr (mem_unreferencedTail.mpr ⟨Int.natCast_nonneg j, by exact_mod_cast hj, hm⟩)
    · exact nodup_range_full hvnodup hvbound (by omega)
  have hlen2 : vi2.length = ar.length :=
    nodup_range_cover_length_eq hnodup2 hbound2 hcov2
  have hcheck : checkPerm ar.length [] vi2 = true := by
    rw [checkPerm_iff]
    refine ⟨?_, hnodup2, by simpa using hlen2⟩
    intro z hz
    obtain ⟨a, b⟩ := hbound2 z hz
    exact ⟨a, b, by simp⟩
  refine ⟨vi2, ?_, hext, hlen2, hnodup2, hbound2, hcov2⟩
  unfold orderByFirstUse
  rw [hs]
  show (if ar.isEmpty then _ else _ : Option (List Int)) = some vi2
  rw [if_neg (by simp [List.isEmpty_iff]; intro hc; rw [hc] at harpos; simp at harpos)]
  have hfoldeq : (s.foldl addNew [] : List Int) = firstUse s := rfl
  rw [if_neg (show ¬ ar.length < (s.foldl addNew []).length by rw [hfoldeq]; omega)]
  show (if checkPerm ar.length []
      (if (s.foldl addNew []).length < ar.length
       then s.foldl addNew [] ++ unreferencedTail ar.length (s.foldl addNew [])
       else s.foldl addNew []) = true
    then some _ else none) = some vi2
  rw [show (s.foldl addNew [] : List Int) = firstUse s from rfl, ← hvi2, if_pos hcheck]

/-! ### The one-attribute stage of the renumberer -/

theorem allComps_mapChains_ne (g : Int → Int) {index index2 : Nat} (hidx : index < 3)
    (hidx2 : index2 < 3) (hne : index2 ≠ index) (R : List (List Chain)) :
    allComps index2 (mapChains g index R) = allComps index2 R := by
  unfold allComps mapChains
  induction R with
  | nil => rfl
  | cons O R ih =>
    simp only [List.map_cons, List.flatMap_cons]
    rw [ih]
    congr 1
    induction O with
    | nil => rfl
    | cons C O ihO =>
      simp only [List.map_cons, List.flatMap_cons]
      rw [ihO]
      congr 1
      induction C with
      | nil => rfl
      | cons e C ihC =>
        simp only [List.map_cons, List.flatMap_cons]
        rw [ihC]
        congr 1
        rw [tagComp_mapTag_ne g hidx hidx2 hne, tagComp_mapTag_ne g hidx hidx2 hne,
          tagComp_mapTag_ne g hidx hidx2 hne]

/-- The full one-attribute pipeline: first-use permutation, rewrite, trim.
Under nonempty, in-bounds references the stage succeeds; the new traversal
is the rank-of-first-appearance image of the old one, the array is trimmed
to exactly the number of distinct referenced values, the other components
are untouched, and (when every stored tag is referenced) every stored tag is
rank-renumbered as well. -/
theorem processAttr_spec {α : Type} {ar : List α} {R : List (List Chain)} {index : Nat}
    {s : List Int} (hidx : index < 3)
    (hs : travSeq index R = some s) (hsne : s ≠ [])
    (hbound : ∀ z ∈ allComps index R, 0 ≤ z ∧ z < (ar.length : Int)) :
    ∃ ar2 R2, processAttr ar R index = some (ar2, R2)
      ∧ travSeq index R2 = some (s.map (fun z => (((firstUse s).indexOf z : Nat) : Int)))
      ∧ ar2.length = (firstUse s).length
      ∧ (∀ index2, index2 < 3 → index2 ≠ index →
          travSeq index2 R2 = travSeq index2 R ∧ allComps index2 R2 = allComps index2 R)
      ∧ ((∀ z ∈ allComps index R, z ∈ s) →
          allComps index R2
            = (allComps index R).map (fun z => (((firstUse s).indexOf z : Nat) : Int))) := by
  have hboundS : ∀ z ∈ s, 0 ≤ z ∧ z < (ar.length : Int) :=
    fun z hz => hbound z (travSeq_subset_allComps hs z hz)
  obtain ⟨vi2, hOBF, ⟨t, hext⟩, hlen2, hnodup2, hbound2v, hcov2⟩ :=
    orderByFirstUse_spec hs hsne hboundS
  have harpos : 0 < ar.length := by
    obtain ⟨z0, hz0⟩ := List.exists_mem_of_ne_nil s hsne
    have h1 := (hboundS z0 hz0).1
    have h2 := (hboundS z0 hz0).2
    omega
  have hvi2ne : vi2 ≠ [] := by
    intro hc
    rw [hc] at hlen2
    simp at hlen2
    omega
  have hget : ∀ z ∈ allComps index R, pyGet (invperm vi2) z
      = some ((vi2.indexOf z : Nat) : Int) := by
    intro z hz
    obtain ⟨hz0, hz1⟩ := hbound z hz
    have hzmem : z ∈ vi2 := by
      have hm := hcov2 z.toNat (by omega)
      have hzz : ((z.toNat : Nat) : Int) = z := by omega
      rwa [hzz] at hm
    exact pyGet_invperm hnodup2 (fun y hy => by rw [hlen2]; exact hbound2v y hy) hzmem
  have hchains := reorderArray_chains hidx R hget
  obtain ⟨newar, hperm, hplen⟩ := permuteArray_some hlen2 hbound2v
  have hra : reorderArray vi2 ar R index
      = some (newar, mapChains (fun z => ((vi2.indexOf z : Nat) : Int)) index R) := by
    unfold reorderArray
    rw [if_neg hvi2ne]
    simp only [Option.bind_eq_bind, Option.pure_def] at hchains ⊢
    rw [hperm, Option.some_bind, hchains, Option.some_bind]
  set g : Int → Int := fun z => ((vi2.indexOf z : Nat) : Int) with hg
  have hrksame : ∀ z ∈ s, g z = (((firstUse s).indexOf z : Nat) : Int) := by
    intro z hz
    have hzf : z ∈ firstUse s := (firstUse_mem s z).mpr hz
    rw [hg]
    simp only []
    rw [hext, List.indexOf_append_of_mem hzf]
  have htrav2 : travSeq index (mapChains g index R)
      = some (s.map (fun z => (((firstUse s).indexOf z : Nat) : Int))) := by
    rw [travSeq_mapChains hidx hs]
    congr 1
    exact List.map_congr_left hrksame
  have hk : (firstUse s).length ≤ ar.length := by
    have := nodup_range_length_le (firstUse_nodup s)
      (fun z hz => hboundS z ((firstUse_mem s z).mp hz))
    exact this
  have htrimc : trimCounter (s.map (fun z => (((firstUse s).indexOf z : Nat) : Int))) 0
      = some (firstUse s).length := by
    have := trimCounter_rank s []
    simpa using this
  have htrim : trim newar (mapChains g index R) index
      = some (newar.take (firstUse s).length) := by
    unfold trim
    rw [htrav2]
    simp only [Option.bind_eq_bind, Option.some_bind, htrimc]
    rw [if_neg (by omega : ¬ newar.length < (firstUse s).length)]
  refine ⟨newar.take (firstUse s).length, mapChains g index R, ?_, htrav2, ?_, ?_, ?_⟩
  · unfold processAttr
    rw [hOBF]
    simp only [Option.bind_eq_bind, Option.pure_def, Option.some_bind]
    rw [hra, Option.some_bind, htrim, Option.some_bind]
  · rw [List.length_take]
    omega
  · intro index2 hidx2 hne2
    exact ⟨travSeq_mapChains_ne hidx hidx2 hne2 R, allComps_mapChains_ne g hidx hidx2 hne2 R⟩
  · intro hcov
    rw [allComps_mapChains g hidx R]
    exact List.map_congr_left (fun z hz => hrksame z (hcov z hz))

/-! ### The absent-attribute stage, stage decomposition, rank first-use -/

theorem trimCounter_allneg : ∀ (s : List Int) (n : Nat), (∀ z ∈ s, z = -1) →
    trimCounter s n = some n := by
  intro s
  induction s with
  | nil => intro n _; rfl
  | cons z s ih =>
    intro n h
    have hz := h z (List.mem_cons_self z s)
    subst hz
    simp only [trimCounter]
    rw [if_neg (by omega), if_neg (by omega)]
    exact ih n (fun w hw => h w (List.mem_cons_of_mem _ hw))

/-- An absent attribute array (every reference `-1`) passes through the
stage untouched: empty permutation, unchanged chains, nothing trimmed. -/
theorem processAttr_absent {α : Type} {R : List (List Chain)} {index : Nat} {s : List Int}
    (hs : travSeq index R = some s) (hF : firstUse s = [-1]) :
    processAttr ([] : List α) R index = some ([], R) := by
  have hOBF : orderByFirstUse ([] : List α) R index = some [] := by
    unfold orderByFirstUse
    rw [hs]
    simp only [Option.bind_eq_bind, Option.some_bind]
    rw [if_pos (by rfl)]
    rw [show (s.foldl addNew [] : List Int) = firstUse s from rfl, hF, if_pos rfl]
  have hra : reorderArray ([] : List Int) ([] : List α) R index = some ([], R) := by
    unfold reorderArray
    rw [if_pos rfl]
  have hallneg : ∀ z ∈ s, z = -1 := by
    intro z hz
    have hm := (firstUse_mem s z).mpr hz
    rw [hF] at hm
    simpa using hm
  have htrim : trim ([] : List α) R index = some [] := by
    unfold trim
    rw [hs]
    simp only [Option.bind_eq_bind, Option.some_bind]
    rw [trimCounter_allneg s 0 hallneg]
    simp only [Option.some_bind]
    rw [if_neg (by simp)]
    rfl
  unfold processAttr
  rw [hOBF]
  simp only [Option.bind_eq_bind, Option.pure_def, Option.some_bind]
  rw [hra, Option.some_bind, htrim, Option.some_bind]

/-- The three-attribute pipeline is the sequential composition of three
one-attribute stages. -/
theorem reorderVNTarrays_eq_stages {α β γ : Type} (v : List α) (t : List β) (n : List γ)
    (R : List (List Chain)) :
    reorderVNTarrays v t n R
      = (processAttr v R 0).bind (fun p1 =>
          (processAttr t p1.2 1).bind (fun p2 =>
            (processAttr n p2.2 2).bind (fun p3 =>
              some (p1.1, p2.1, p3.1, p3.2)))) := by
  unfold reorderVNTarrays processAttr
  simp only [Option.bind_eq_bind, Option.pure_def, Option.bind_assoc, Option.some_bind]

theorem firstUse_map_rank (s : List Int) :
    firstUse (s.map (fun z => (((firstUse s).indexOf z : Nat) : Int)))
      = identityPerm (firstUse s).length := by
  have h := foldl_addNew_map_rank s []
  simpa [firstUse] using h

theorem firstUse_length_pos {s : List Int} (hs : s ≠ []) : 0 < (firstUse s).length := by
  obtain ⟨z, hz⟩ := List.exists_mem_of_ne_nil s hs
  have hm : z ∈ firstUse s := (firstUse_mem s z).mpr hz
  exact List.length_pos.mpr (List.ne_nil_of_mem hm)

theorem mapTag_id (index : Nat) (a : Attr) : mapTag (fun z => z) index a = a := by
  simp [mapTag]

theorem mapChains_id (index : Nat) (R : List (List Chain)) :
    mapChains (fun z => z) index R = R := by
  unfold mapChains
  have he : ∀ (e : Entry),
      (e.1, (mapTag (fun (z : Int) => z) index e.2.1, mapTag (fun (z : Int) => z) index e.2.2.1,
        mapTag (fun (z : Int) => z) index e.2.2.2)) = e := by
    intro e
    rw [mapTag_id, mapTag_id, mapTag_id]
  simp only [he]
  simp

/-- Second-run stage: when the traversal's first-use list is already the
identity permutation on the array length (and the frontier walk completes),
the stage computes the identity permutation and returns the array and chains
unchanged. -/
theorem processAttr_id {α : Type} {ar2 : List α} {R2 : List (List Chain)} {index : Nat}
    {s2 : List Int} {k : Nat} (hidx : index < 3)
    (hs2 : travSeq index R2 = some s2)
    (hfu : firstUse s2 = identityPerm k)
    (hkpos : 0 < k)
    (hlen : ar2.length = k)
    (htc : trimCounter s2 0 = some k)
    (hallb : ∀ z ∈ allComps index R2, 0 ≤ z ∧ z < (k : Int)) :
    orderByFirstUse ar2 R2 index = some (identityPerm k)
      ∧ processAttr ar2 R2 index = some (ar2, R2) := by
  have harpos : 0 < ar2.length := by omega
  have hcheck : checkPerm k [] (identityPerm k) = true := by
    rw [checkPerm_iff]
    refine ⟨?_, identityPerm_nodup k, by simp [identityPerm_length]⟩
    intro z hz
    obtain ⟨a, b⟩ := (mem_identityPerm k z).mp hz
    exact ⟨a, b, by simp⟩
  have hOBF : orderByFirstUse ar2 R2 index = some (identityPerm k) := by
    unfold orderByFirstUse
    rw [hs2]
    show (if ar2.isEmpty then _ else _ : Option (List Int)) = some (identityPerm k)
    rw [if_neg (by simp [List.isEmpty_iff]; intro hc; rw [hc] at harpos; simp at harpos)]
    have hfoldeq : (s2.foldl addNew [] : List Int) = identityPerm k := hfu
    rw [if_neg (show ¬ ar2.length < (s2.foldl addNew []).length by
      rw [hfoldeq, identityPerm_length]; omega)]
    show (if checkPerm ar2.length []
        (if (s2.foldl addNew []).length < ar2.length
         then s2.foldl addNew [] ++ unreferencedTail ar2.length (s2.foldl addNew [])
         else s2.foldl addNew []) = true
      then some _ else none) = some (identityPerm k)
    rw [hfoldeq, identityPerm_length, hlen, if_neg (lt_irrefl k), if_pos hcheck]
  have hid : identityPerm k ≠ [] := by
    intro hc
    have hl := identityPerm_length k
    rw [hc] at hl
    simp at hl
    omega
  have hget : ∀ z ∈ allComps index R2,
      pyGet (invperm (identityPerm k)) z = some ((fun (z : Int) => z) z) := by
    intro z hz
    obtain ⟨a, b⟩ := hallb z hz
    exact pyGet_invperm_identity a b
  have hchains := @reorderArray_chains (invperm (identityPerm k)) (fun (z : Int) => z) index hidx R2 hget
  have hpa := permuteArray_identity ar2
  rw [hlen] at hpa
  have hra : reorderArray (identityPerm k) ar2 R2 index = some (ar2, R2) := by
    unfold reorderArray
    rw [if_neg hid]
    simp only [Option.bind_eq_bind, Option.pure_def] at hchains ⊢
    rw [hpa, Option.some_bind, hchains, Option.some_bind, mapChains_id]
  have htrim : trim ar2 R2 index = some ar2 := by
    unfold trim
    rw [hs2]
    simp only [Option.bind_eq_bind, Option.some_bind, htc]
    rw [if_neg (by omega : ¬ ar2.length < k)]
    rw [show ar2.take k = ar2 from by rw [← hlen]; exact List.take_length ar2]
  refine ⟨hOBF, ?_⟩
  unfold processAttr
  rw [hOBF]
  simp only [Option.bind_eq_bind, Option.pure_def, Option.some_bind]
  rw [hra, Option.some_bind]
  show (trim ar2 R2 index).bind _ = some (ar2, R2)
  rw [htrim, Option.some_bind]

/-- C4: when every attribute array is referenced at least once and all input
indices are in bounds, `reorderVNTarrays` succeeds and, for each of the three
attributes, rewrites every stored index to the rank of first appearance of its
original value in the traversal order; the renumbered traversal's first-use
list is exactly `[0, …, k-1]` (no gaps), and each array is trimmed to length
exactly `k`, the number of distinct referenced entries. -/
theorem C4_first_use_renumbering {α β γ : Type} (v : List α) (t : List β) (n : List γ)
    (R : List (List Chain)) (s0 s1 s2 : List Int)
    (h0 : travSeq 0 R = some s0) (hne0 : s0 ≠ [])
    (h1 : travSeq 1 R = some s1) (hne1 : s1 ≠ [])
    (h2 : travSeq 2 R = some s2) (hne2 : s2 ≠ [])
    (hb0 : ∀ z ∈ allComps 0 R, 0 ≤ z ∧ z < (v.length : Int))
    (hb1 : ∀ z ∈ allComps 1 R, 0 ≤ z ∧ z < (t.length : Int))
    (hb2 : ∀ z ∈ allComps 2 R, 0 ≤ z ∧ z < (n.length : Int)) :
    ∃ v2 t2 n2 R3, reorderVNTarrays v t n R = some (v2, t2, n2, R3)
      ∧ travSeq 0 R3 = some (s0.map (fun z => (((firstUse s0).indexOf z : Nat) : Int)))
      ∧ travSeq 1 R3 = some (s1.map (fun z => (((firstUse s1).indexOf z : Nat) : Int)))
      ∧ travSeq 2 R3 = some (s2.map (fun z => (((firstUse s2).indexOf z : Nat) : Int)))
      ∧ v2.length = (firstUse s0).length
      ∧ t2.length = (firstUse s1).length
      ∧ n2.length = (firstUse s2).length
      ∧ firstUse (s0.map (fun z => (((firstUse s0).indexOf z : Nat) : Int)))
          = identityPerm (firstUse s0).length
      ∧ firstUse (s1.map (fun z => (((firstUse s1).indexOf z : Nat) : Int)))
          = identityPerm (firstUse s1).length
      ∧ firstUse (s2.map (fun z => (((firstUse s2).indexOf z : Nat) : Int)))
          = identityPerm (firstUse s2).length := by
  obtain ⟨v2, R1, hp0, htrav0, hlenv, hinv0, _⟩ :=
    @processAttr_spec _ v R 0 s0 (by omega) h0 hne0 hb0
  have e1 := hinv0 1 (by omega) (by omega)
  have e2 := hinv0 2 (by omega) (by omega)
  have h1' : travSeq 1 R1 = some s1 := by rw [e1.1, h1]
  have hb1' : ∀ z ∈ allComps 1 R1, 0 ≤ z ∧ z < (t.length : Int) := by
    rw [e1.2]; exact hb1
  obtain ⟨t2, R2, hp1, htrav1, hlent, hinv1, _⟩ :=
    @processAttr_spec _ t R1 1 s1 (by omega) h1' hne1 hb1'
  have f0 := hinv1 0 (by omega) (by omega)
  have f2 := hinv1 2 (by omega) (by omega)
  have h2' : travSeq 2 R2 = some s2 := by rw [f2.1, e2.1, h2]
  have hb2' : ∀ z ∈ allComps 2 R2, 0 ≤ z ∧ z < (n.length : Int) := by
    rw [f2.2, e2.2]; exact hb2
  obtain ⟨n2, R3, hp2, htrav2, hlenn, hinv2, _⟩ :=
    @processAttr_spec _ n R2 2 s2 (by omega) h2' hne2 hb2'
  have g0 := hinv2 0 (by omega) (by omega)
  have g1 := hinv2 1 (by omega) (by omega)
  refine ⟨v2, t2, n2, R3, ?_, ?_, ?_, htrav2, hlenv, hlent, hlenn,
    firstUse_map_rank s0, firstUse_map_rank s1, firstUse_map_rank s2⟩
  · rw [reorderVNTarrays_eq_stages]
    simp only [hp0, hp1, hp2, Option.some_bind]
  · rw [g0.1, f0.1, htrav0]
  · rw [g1.1, htrav1]

theorem C4_first_use_renumbering_witness :
    (travSeq 0 RexW = some [2, 5, 7, 9]
      ∧ (∀ z ∈ allComps 0 RexW, 0 ≤ z ∧ z < (verticeW.length : Int)))
    ∧ ∃ v2 t2 n2 R3,
        reorderVNTarrays verticeW textureW normalW RexW = some (v2, t2, n2, R3)
        ∧ travSeq 0 R3 = some [0, 1, 2, 3]
        ∧ travSeq 2 R3 = some [0, 1, 0, 2]
        ∧ v2.length = 4 ∧ n2.length = 3 := by
  refine ⟨⟨by decide, by decide⟩, ?_⟩
  obtain ⟨v2, t2, n2, R3, hr, ht0, _, ht2, hlv, _, hln, _⟩ :=
    C4_first_use_renumbering verticeW textureW normalW RexW
      [2, 5, 7, 9] [1, 0, 2, 3] [0, 1, 0, 2]
      (by decide) (by decide) (by decide) (by decide) (by decide) (by decide)
      (by decide) (by decide) (by decide)
  exact ⟨v2, t2, n2, R3, hr, by rw [ht0]; decide, by rw [ht2]; decide,
    by rw [hlv]; decide, by rw [hln]; decide⟩

/-- C9: for an attribute array with at least one reference, all referenced
indices in bounds, the first-use permutation computed by `orderByFirstUse` is
returned successfully (so none of the four validation error branches fires)
and is a bijection on `\x7b0, …, len-1\x7d`: full length, no duplicates, every
value in range, every position covered. -/
theorem C9_bijection {α : Type} (ar : List α) (R : List (List Chain)) (index : Nat)
    (s : List Int) (hs : travSeq index R = some s) (hsne : s ≠ [])
    (hbound : ∀ z ∈ s, 0 ≤ z ∧ z < (ar.length : Int)) :
    ∃ vi2, orderByFirstUse ar R index = some vi2
      ∧ vi2.length = ar.length ∧ vi2.Nodup
      ∧ (∀ z ∈ vi2, 0 ≤ z ∧ z < (ar.length : Int))
      ∧ (∀ j : Nat, j < ar.length → ((j : Nat) : Int) ∈ vi2) := by
  obtain ⟨vi2, hOBF, _, hlen, hnd, hb, hcov⟩ := orderByFirstUse_spec hs hsne hbound
  exact ⟨vi2, hOBF, hlen, hnd, hb, hcov⟩

theorem C9_bijection_witness :
    (travSeq 0 RexW = some [2, 5, 7, 9]
      ∧ (∀ z ∈ ([2, 5, 7, 9] : List Int), 0 ≤ z ∧ z < (verticeW.length : Int)))
    ∧ ∃ vi2, orderByFirstUse verticeW RexW 0 = some vi2
        ∧ vi2.length = 10 ∧ vi2.Nodup
        ∧ (∀ z ∈ vi2, 0 ≤ z ∧ z < (verticeW.length : Int))
        ∧ (∀ j : Nat, j < 10 → ((j : Nat) : Int) ∈ vi2) := by
  refine ⟨⟨by decide, by decide⟩, ?_⟩
  obtain ⟨vi2, hOBF, hlen, hnd, hb, hcov⟩ :=
    C9_bijection verticeW RexW 0 [2, 5, 7, 9] (by decide) (by decide) (by decide)
  exact ⟨vi2, hOBF, hlen, hnd, hb, hcov⟩

/-- C10: the renumberer is idempotent on its own output. If a first run of
`reorderVNTarrays` succeeds on covered, in-bounds data (every stored tag
referenced by some traversal position, as the chain builder guarantees by
adjacency), then re-running it on the returned arrays and chains computes
the identity permutation for each attribute and returns the arrays and
every stored attribute index unchanged, with zero entries trimmed. -/
theorem C10_idempotent {α β γ : Type} (v : List α) (t : List β) (n : List γ)
    (R : List (List Chain)) (s0 s1 s2 : List Int)
    (h0 : travSeq 0 R = some s0) (hne0 : s0 ≠ [])
    (h1 : travSeq 1 R = some s1) (hne1 : s1 ≠ [])
    (h2 : travSeq 2 R = some s2) (hne2 : s2 ≠ [])
    (hb0 : ∀ z ∈ allComps 0 R, 0 ≤ z ∧ z < (v.length : Int))
    (hb1 : ∀ z ∈ allComps 1 R, 0 ≤ z ∧ z < (t.length : Int))
    (hb2 : ∀ z ∈ allComps 2 R, 0 ≤ z ∧ z < (n.length : Int))
    (hc0 : ∀ z ∈ allComps 0 R, z ∈ s0)
    (hc1 : ∀ z ∈ allComps 1 R, z ∈ s1)
    (hc2 : ∀ z ∈ allComps 2 R, z ∈ s2) :
    ∀ v2 t2 n2 R3, reorderVNTarrays v t n R = some (v2, t2, n2, R3) →
      reorderVNTarrays v2 t2 n2 R3 = some (v2, t2, n2, R3)
      ∧ orderByFirstUse v2 R3 0 = some (identityPerm v2.length)
      ∧ orderByFirstUse t2 R3 1 = some (identityPerm t2.length)
      ∧ orderByFirstUse n2 R3 2 = some (identityPerm n2.length) := by
  obtain ⟨v2', R1, hp0, htrav0, hlenv, hinv0, hcomp0⟩ :=
    @processAttr_spec _ v R 0 s0 (by omega) h0 hne0 hb0
  have e1 := hinv0 1 (by omega) (by omega)
  have e2 := hinv0 2 (by omega) (by omega)
  have h1' : travSeq 1 R1 = some s1 := by rw [e1.1, h1]
  have hb1' : ∀ z ∈ allComps 1 R1, 0 ≤ z ∧ z < (t.length : Int) := by
    rw [e1.2]; exact hb1
  obtain ⟨t2', R2, hp1, htrav1, hlent, hinv1, hcomp1⟩ :=
    @processAttr_spec _ t R1 1 s1 (by omega) h1' hne1 hb1'
  have f0 := hinv1 0 (by omega) (by omega)
  have f2 := hinv1 2 (by omega) (by omega)
  have h2' : travSeq 2 R2 = some s2 := by rw [f2.1, e2.1, h2]
  have hb2' : ∀ z ∈ allComps 2 R2, 0 ≤ z ∧ z < (n.length : Int) := by
    rw [f2.2, e2.2]; exact hb2
  obtain ⟨n2', R3', hp2, htrav2, hlenn, hinv2, hcomp2⟩ :=
    @processAttr_spec _ n R2 2 s2 (by omega) h2' hne2 hb2'
  have g0 := hinv2 0 (by omega) (by omega)
  have g1 := hinv2 1 (by omega) (by omega)
  intro v2 t2 n2 R3 hfirst
  have hfirst' : reorderVNTarrays v t n R = some (v2', t2', n2', R3') := by
    rw [reorderVNTarrays_eq_stages]
    simp only [hp0, hp1, hp2, Option.some_bind]
  rw [hfirst] at hfirst'
  simp only [Option.some.injEq, Prod.mk.injEq] at hfirst'
  obtain ⟨ev, et, en, er⟩ := hfirst'
  subst ev; subst et; subst en; subst er
  have hs0' : travSeq 0 R3 = some (s0.map (fun z => (((firstUse s0).indexOf z : Nat) : Int))) := by
    rw [g0.1, f0.1, htrav0]
  have hall0 : ∀ z ∈ allComps 0 R3, 0 ≤ z ∧ z < ((firstUse s0).length : Int) := by
    have htr : allComps 0 R3
        = (allComps 0 R).map (fun z => (((firstUse s0).indexOf z : Nat) : Int)) := by
      rw [g0.2, f0.2, hcomp0 hc0]
    rw [htr]
    intro z' hz'
    rw [List.mem_map] at hz'
    obtain ⟨z, hz, rfl⟩ := hz'
    have hzf : z ∈ firstUse s0 := (firstUse_mem s0 z).mpr (hc0 z hz)
    have hidx := List.indexOf_lt_length.mpr hzf
    exact ⟨Int.natCast_nonneg _, by exact_mod_cast hidx⟩
  have htc0 : trimCounter (s0.map (fun z => (((firstUse s0).indexOf z : Nat) : Int))) 0
      = some (firstUse s0).length := by
    have h := trimCounter_rank s0 []
    simpa using h
  obtain ⟨hOBF0, hpid0⟩ := processAttr_id (by omega) hs0' (firstUse_map_rank s0)
    (firstUse_length_pos hne0) hlenv htc0 hall0
  have hs1' : travSeq 1 R3 = some (s1.map (fun z => (((firstUse s1).indexOf z : Nat) : Int))) := by
    rw [g1.1, htrav1]
  have hcov1 : ∀ z ∈ allComps 1 R1, z ∈ s1 := by rw [e1.2]; exact hc1
  have hall1 : ∀ z ∈ allComps 1 R3, 0 ≤ z ∧ z < ((firstUse s1).length : Int) := by
    have htr : allComps 1 R3
        = (allComps 1 R1).map (fun z => (((firstUse s1).indexOf z : Nat) : Int)) := by
      rw [g1.2, hcomp1 hcov1]
    rw [htr]
    intro z' hz'
    rw [List.mem_map] at hz'
    obtain ⟨z, hz, rfl⟩ := hz'
    have hzf : z ∈ firstUse s1 := (firstUse_mem s1 z).mpr (hcov1 z hz)
    have hidx := List.indexOf_lt_length.mpr hzf
    exact ⟨Int.natCast_nonneg _, by exact_mod_cast hidx⟩
  have htc1 : trimCounter (s1.map (fun z => (((firstUse s1).indexOf z : Nat) : Int))) 0
      = some (firstUse s1).length := by
    have h := trimCounter_rank s1 []
    simpa using h
  obtain ⟨hOBF1, hpid1⟩ := processAttr_id (by omega) hs1' (firstUse_map_rank s1)
    (firstUse_length_pos hne1) hlent htc1 hall1
  have hcov2 : ∀ z ∈ allComps 2 R2, z ∈ s2 := by rw [f2.2, e2.2]; exact hc2
  have hall2 : ∀ z ∈ allComps 2 R3, 0 ≤ z ∧ z < ((firstUse s2).length : Int) := by
    have htr : allComps 2 R3
        = (allComps 2 R2).map (fun z => (((firstUse s2).indexOf z : Nat) : Int)) :=
      hcomp2 hcov2
    rw [htr]
    intro z' hz'
    rw [List.mem_map] at hz'
    obtain ⟨z, hz, rfl⟩ := hz'
    have hzf : z ∈ firstUse s2 := (firstUse_mem s2 z).mpr (hcov2 z hz)
    have hidx := List.indexOf_lt_length.mpr hzf
    exact ⟨Int.natCast_nonneg _, by exact_mod_cast hidx⟩
  have htc2 : trimCounter (s2.map (fun z => (((firstUse s2).indexOf z : Nat) : Int))) 0
      = some (firstUse s2).length := by
    have h := trimCounter_rank s2 []
    simpa using h
  obtain ⟨hOBF2, hpid2⟩ := processAttr_id (by omega) htrav2 (firstUse_map_rank s2)
    (firstUse_length_pos hne2) hlenn htc2 hall2
  refine ⟨?_, ?_, ?_, ?_⟩
  · rw [reorderVNTarrays_eq_stages]
    simp only [hpid0, hpid1, hpid2, Option.some_bind]
  · rw [hlenv]; exact hOBF0
  · rw [hlent]; exact hOBF1
  · rw [hlenn]; exact hOBF2

theorem C10_idempotent_witness :
    reorderVNTarrays verticeW textureW normalW RexW
        = some (vertice2W, texture2W, normal2W, Rex2W)
    ∧ reorderVNTarrays vertice2W texture2W normal2W Rex2W
        = some (vertice2W, texture2W, normal2W, Rex2W)
    ∧ orderByFirstUse vertice2W Rex2W 0 = some (identityPerm 4)
    ∧ orderByFirstUse normal2W Rex2W 2 = some (identityPerm 3) := by
  have h := C10_idempotent verticeW textureW normalW RexW
    [2, 5, 7, 9] [1, 0, 2, 3] [0, 1, 0, 2]
    (by decide) (by decide) (by decide) (by decide) (by decide) (by decide)
    (by decide) (by decide) (by decide) (by decide) (by decide) (by decide)
    vertice2W texture2W normal2W Rex2W (by decide)
  exact ⟨by decide, h.1, h.2.1, h.2.2.2⟩

/-! ### The encoder stream: element count and round-trip decode -/

theorem writeelem_length {ht hn : Bool} {a : Attr} (hp : cornerPres ht hn a) :
    (writeelem a).length = elemOf ht hn := by
  obtain ⟨h1, h2⟩ := hp
  cases ht <;> cases hn <;> simp_all [writeelem, elemOf]

theorem cornerPres_fold {ht hn : Bool} {a : Attr} (hp : cornerPres ht hn a) (x : Int) :
    cornerPres ht hn (x, a.2.1, a.2.2) := by
  obtain ⟨h1, h2⟩ := hp
  exact ⟨h1, h2⟩

theorem readCorner_writeelem (ht hn : Bool) (a : Attr) (rest : List Int)
    (hp : cornerPres ht hn a) :
    readCorner ht hn (writeelem a ++ rest) = some (a, rest) := by
  obtain ⟨h1, h2⟩ := hp
  obtain ⟨a1, a2, a3⟩ := a
  cases ht <;> cases hn <;>
    simp_all [writeelem, readCorner, readOpt]

theorem mapM_length {α β : Type} (f : α → Option β) :
    ∀ (l : List α) (ps : List β), l.mapM f = some ps → ps.length = l.length := by
  intro l
  induction l with
  | nil =>
    intro ps h
    simp only [List.mapM_nil, Option.pure_def, Option.some.injEq] at h
    subst h
    rfl
  | cons a l ih =>
    intro ps h
    rw [List.mapM_cons] at h
    match ha : f a with
    | none => rw [ha] at h; exact absurd h (by simp)
    | some b =>
      rw [ha] at h
      match hl : l.mapM f with
      | none => rw [hl] at h; simp at h
      | some ps2 =>
        rw [hl] at h
        have h2 : (some (b :: ps2) : Option (List β)) = some ps := h
        simp only [Option.some.injEq] at h2
        subst h2
        simp only [List.length_cons, ih ps2 hl]

theorem mapM_some_of_forall {α β : Type} (f : α → Option β) :
    ∀ l : List α, (∀ x ∈ l, ∃ y, f x = some y) → ∃ ps, l.mapM f = some ps := by
  intro l
  induction l with
  | nil => intro _; exact ⟨[], rfl⟩
  | cons a l ih =>
    intro h
    obtain ⟨b, hb⟩ := h a (List.mem_cons_self a l)
    obtain ⟨ps, hps⟩ := ih (fun x hx => h x (List.mem_cons_of_mem a hx))
    refine ⟨b :: ps, ?_⟩
    rw [List.mapM_cons, hb, hps]
    rfl

theorem mapM_flatten_length {α : Type} (f : α → Option (List Int)) (k : Nat) :
    ∀ (l : List α) (ps : List (List Int)), l.mapM f = some ps →
    (∀ x ∈ l, ∀ y, f x = some y → y.length = k) →
    ps.flatten.length = l.length * k := by
  intro l
  induction l with
  | nil =>
    intro ps h _
    simp only [List.mapM_nil, Option.pure_def, Option.some.injEq] at h
    subst h
    simp
  | cons a l ih =>
    intro ps h hk
    rw [List.mapM_cons] at h
    match ha : f a with
    | none => rw [ha] at h; exact absurd h (by simp)
    | some b =>
      rw [ha] at h
      match hl : l.mapM f with
      | none => rw [hl] at h; simp at h
      | some ps2 =>
        rw [hl] at h
        have h2 : (some (b :: ps2) : Option (List (List Int))) = some ps := h
        simp only [Option.some.injEq] at h2
        subst h2
        have hbk := hk a (List.mem_cons_self a l) b ha
        have hrest := ih ps2 hl (fun x hx => hk x (List.mem_cons_of_mem a hx))
        simp only [List.flatten_cons, List.length_append, List.length_cons, hbk, hrest]
        ring

theorem encodeEntry_spec {ht hn : Bool} {e : Entry}
    (hfl : e.1 = some 0 ∨ e.1 = some 1)
    (hp : cornerPres ht hn e.2.2.2) :
    ∃ el, encodeEntry e = some el ∧ el.length = elemOf ht hn := by
  rcases hfl with he | he
  · exact ⟨writeelem (e.2.2.2.1 + 32768 * ((0 : Nat) : Int), e.2.2.2.2.1, e.2.2.2.2.2),
      by simp only [encodeEntry, he], writeelem_length (cornerPres_fold hp _)⟩
  · exact ⟨writeelem (e.2.2.2.1 + 32768 * ((1 : Nat) : Int), e.2.2.2.2.1, e.2.2.2.2.2),
      by simp only [encodeEntry, he], writeelem_length (cornerPres_fold hp _)⟩

theorem encodeChain_spec {ht hn : Bool} {C : Chain} (hne : C ≠ [])
    (hfl : ∀ e ∈ C.tail, e.1 = some 0 ∨ e.1 = some 1)
    (hpres : ∀ e ∈ C, cornerPres ht hn e.2.1 ∧ cornerPres ht hn e.2.2.1
      ∧ cornerPres ht hn e.2.2.2) :
    ∃ ws, encodeChain C = some ws
      ∧ ws.length = 1 + (2 + C.length) * elemOf ht hn
      ∧ ws ≠ [] := by
  match C, hne with
  | e0 :: tl, _ =>
    have hex : ∀ e ∈ tl, ∃ el, encodeEntry e = some el := by
      intro e he
      obtain ⟨el, hel, -⟩ :=
        encodeEntry_spec (hfl e he) ((hpres e (List.mem_cons_of_mem e0 he)).2.2)
      exact ⟨el, hel⟩
    obtain ⟨tp, htp⟩ := mapM_some_of_forall encodeEntry tl hex
    have hflat : tp.flatten.length = tl.length * elemOf ht hn := by
      refine mapM_flatten_length encodeEntry (elemOf ht hn) tl tp htp ?_
      intro e he el hel
      obtain ⟨el2, hel2, hlen2⟩ :=
        encodeEntry_spec (hfl e he) ((hpres e (List.mem_cons_of_mem e0 he)).2.2)
      rw [hel] at hel2
      simp only [Option.some.injEq] at hel2
      rw [hel2]
      exact hlen2
    obtain ⟨hp1, hp2, hp3⟩ := hpres e0 (List.mem_cons_self e0 tl)
    refine ⟨((tl.length + 1 : Nat) : Int) ::
        (writeelem e0.2.1 ++ writeelem e0.2.2.1 ++ writeelem e0.2.2.2 ++ tp.flatten),
      ?_, ?_, by simp⟩
    · simp only [encodeChain, htp, Option.map_some']
    · simp only [List.length_cons, List.length_append,
        writeelem_length hp1, writeelem_length hp2, writeelem_length hp3, hflat]
      have hm : (2 + (tl.length + 1)) * elemOf ht hn
          = elemOf ht hn + (elemOf ht hn + (elemOf ht hn + tl.length * elemOf ht hn)) := by
        ring
      omega

theorem decodeTailStep_encode {ht hn : Bool} {p e : Entry} {el : List Int} (rest : List Int)
    (henc : encodeEntry e = some el)
    (hadj : adjRelB p e = true)
    (hfl : e.1 = some 0 ∨ e.1 = some 1)
    (hv : 0 ≤ e.2.2.2.1 ∧ e.2.2.2.1 < 32768)
    (hp : cornerPres ht hn e.2.2.2) :
    decodeTailStep ht hn p.2 (el ++ rest) = some (e.2, rest) := by
  rcases hfl with he | he
  · simp only [encodeEntry, he, Option.some.injEq] at henc
    subst henc
    simp only [adjRelB, he, Nat.sub_zero, beq_iff_eq, edge_zero, invertEdge,
      Prod.mk.injEq] at hadj
    obtain ⟨ha1, ha2⟩ := hadj
    rw [decodeTailStep,
      readCorner_writeelem ht hn _ rest (cornerPres_fold hp _)]
    simp only [Option.map_some']
    have hb : ¬ (32768 ≤ e.2.2.2.1 + 32768 * ((0 : Nat) : Int)) := by
      push_cast
      omega
    rw [if_neg hb]
    simp only [Nat.sub_zero, Option.some.injEq, Prod.mk.injEq]
    refine ⟨?_, by trivial⟩
    have hT : e.2 = (e.2.1, e.2.2.1, e.2.2.2) := rfl
    rw [hT, ← ha1, ← ha2]
    have hv3 : e.2.2.2.1 + 32768 * ((0 : Nat) : Int) - 32768 * ((0 : Nat) : Int)
        = e.2.2.2.1 := by push_cast; ring
    rw [hv3]
  · simp only [encodeEntry, he, Option.some.injEq] at henc
    subst henc
    simp only [adjRelB, he, beq_iff_eq, edge_zero, invertEdge, Prod.mk.injEq] at hadj
    obtain ⟨ha1, ha2⟩ := hadj
    rw [decodeTailStep,
      readCorner_writeelem ht hn _ rest (cornerPres_fold hp _)]
    simp only [Option.map_some']
    have hb : (32768 ≤ e.2.2.2.1 + 32768 * ((1 : Nat) : Int)) := by
      push_cast
      omega
    rw [if_pos hb]
    simp only [Option.some.injEq, Prod.mk.injEq]
    refine ⟨?_, by trivial⟩
    have hT : e.2 = (e.2.1, e.2.2.1, e.2.2.2) := rfl
    rw [hT, ← ha1, ← ha2]
    have hv3 : e.2.2.2.1 + 32768 * ((1 : Nat) : Int) - 32768 * ((1 : Nat) : Int)
        = e.2.2.2.1 := by push_cast; ring
    rw [hv3]

theorem decodeTailRun_encode {ht hn : Bool} :
    ∀ (tl : Chain) (p : Entry) (tp : List (List Int)) (rest : List Int),
    tl.mapM encodeEntry = some tp →
    List.Chain' (fun a b => adjRelB a b = true) (p :: tl) →
    (∀ e ∈ tl, e.1 = some 0 ∨ e.1 = some 1) →
    (∀ e ∈ tl, 0 ≤ e.2.2.2.1 ∧ e.2.2.2.1 < 32768) →
    (∀ e ∈ tl, cornerPres ht hn e.2.2.2) →
    decodeTailRun ht hn tl.length p.2 (tp.flatten ++ rest)
      = some (tl.map (fun e => e.2), rest) := by
  intro tl
  induction tl with
  | nil =>
    intro p tp rest hm _ _ _ _
    simp only [List.mapM_nil, Option.pure_def, Option.some.injEq] at hm
    subst hm
    rfl
  | cons e tl ih =>
    intro p tp rest hm hch hfl hv hpres
    rw [List.mapM_cons] at hm
    match hel : encodeEntry e with
    | none => rw [hel] at hm; exact absurd hm (by simp)
    | some el =>
      rw [hel] at hm
      match htl : tl.mapM encodeEntry with
      | none => rw [htl] at hm; simp at hm
      | some tps =>
        rw [htl] at hm
        have h2 : (some (el :: tps) : Option (List (List Int))) = some tp := hm
        simp only [Option.some.injEq] at h2
        subst h2
        rw [List.chain'_cons] at hch
        have hstep := decodeTailStep_encode (tps.flatten ++ rest) hel hch.1
          (hfl e (List.mem_cons_self e tl)) (hv e (List.mem_cons_self e tl))
          (hpres e (List.mem_cons_self e tl))
        have hrest := ih e tps rest htl hch.2
          (fun x hx => hfl x (List.mem_cons_of_mem e hx))
          (fun x hx => hv x (List.mem_cons_of_mem e hx))
          (fun x hx => hpres x (List.mem_cons_of_mem e hx))
        simp only [List.length_cons, decodeTailRun, List.flatten_cons, List.append_assoc,
          hstep, Option.some_bind, hrest, Option.map_some', List.map_cons]

theorem decodeChain_encode {ht hn : Bool} (e0 : Entry) (tl : Chain) (tp : List (List Int))
    (rest : List Int)
    (hm : tl.mapM encodeEntry = some tp)
    (hch : List.Chain' (fun a b => adjRelB a b = true) (e0 :: tl))
    (hfl : ∀ e ∈ tl, e.1 = some 0 ∨ e.1 = some 1)
    (hv : ∀ e ∈ tl, 0 ≤ e.2.2.2.1 ∧ e.2.2.2.1 < 32768)
    (hpres0 : cornerPres ht hn e0.2.1 ∧ cornerPres ht hn e0.2.2.1 ∧ cornerPres ht hn e0.2.2.2)
    (hprest : ∀ e ∈ tl, cornerPres ht hn e.2.2.2) :
    decodeChain ht hn (tl.length + 1)
        (writeelem e0.2.1 ++ (writeelem e0.2.2.1 ++ (writeelem e0.2.2.2
          ++ (tp.flatten ++ rest))))
      = some (chainTris (e0 :: tl), rest) := by
  rw [decodeChain,
    readCorner_writeelem ht hn _ _ hpres0.1]
  simp only [Option.some_bind]
  rw [readCorner_writeelem ht hn _ _ hpres0.2.1]
  simp only [Option.some_bind]
  rw [readCorner_writeelem ht hn _ _ hpres0.2.2]
  simp only [Option.some_bind]
  have hT0 : ((e0.2.1, e0.2.2.1, e0.2.2.2) : Tri) = e0.2 := rfl
  rw [Nat.add_sub_cancel, hT0,
    decodeTailRun_encode tl e0 tp rest hm hch hfl hv hprest]
  simp only [Option.map_some', chainTris, List.map_cons]

theorem decodeChains_encode {ht hn : Bool} :
    ∀ (O : List Chain) (fuel : Nat) (parts : List (List Int)),
    O.length < fuel →
    O.mapM encodeChain = some parts →
    (∀ C ∈ O, C ≠ []) →
    (∀ C ∈ O, chainAdj C) →
    (∀ C ∈ O, ∀ e ∈ C.tail, e.1 = some 0 ∨ e.1 = some 1) →
    (∀ C ∈ O, ∀ e ∈ C.tail, 0 ≤ e.2.2.2.1 ∧ e.2.2.2.1 < 32768) →
    (∀ C ∈ O, ∀ e ∈ C, cornerPres ht hn e.2.1 ∧ cornerPres ht hn e.2.2.1
      ∧ cornerPres ht hn e.2.2.2) →
    decodeChains ht hn fuel (parts.flatten ++ [0]) = some (O.map chainTris) := by
  intro O
  induction O with
  | nil =>
    intro fuel parts hfuel hm _ _ _ _ _
    simp only [List.mapM_nil, Option.pure_def, Option.some.injEq] at hm
    subst hm
    match fuel, hfuel with
    | f + 1, _ => rfl
  | cons C O ih =>
    intro fuel parts hfuel hm hne hadj hfl hv hpres
    rw [List.mapM_cons] at hm
    match hC : encodeChain C with
    | none => rw [hC] at hm; exact absurd hm (by simp)
    | some wsC =>
      rw [hC] at hm
      match hO : O.mapM encodeChain with
      | none => rw [hO] at hm; simp at hm
      | some ps =>
        rw [hO] at hm
        have h2 : (some (wsC :: ps) : Option (List (List Int))) = some parts := hm
        simp only [Option.some.injEq] at h2
        subst h2
        have hadjC := hadj C (List.mem_cons_self C O)
        have hflC := hfl C (List.mem_cons_self C O)
        have hvC := hv C (List.mem_cons_self C O)
        have hpresC := hpres C (List.mem_cons_self C O)
        have hneC := hne C (List.mem_cons_self C O)
        match C, hneC, hadjC, hflC, hvC, hpresC, hC with
        | e0 :: tl, _, hadjC, hflC, hvC, hpresC, hC =>
          rw [encodeChain] at hC
          match htp : tl.mapM encodeEntry with
          | none => rw [htp] at hC; exact absurd hC (by simp)
          | some tp =>
            rw [htp] at hC
            simp only [Option.map_some', Option.some.injEq] at hC
            subst hC
            match fuel, hfuel with
            | f + 1, hfuel =>
              have hlc : (((tl.length + 1 : Nat) : Int)) ≠ 0 := by
                push_cast
                omega
              have hlc2 : ¬ (((tl.length + 1 : Nat) : Int) < 0) := by
                push_cast
                omega
              have htn : (((tl.length + 1 : Nat) : Int)).toNat = tl.length + 1 := by
                omega
              simp only [List.flatten_cons, List.cons_append, List.append_assoc,
                decodeChains]
              rw [if_neg hlc, if_neg hlc2, htn]
              rw [decodeChain_encode e0 tl tp (ps.flatten ++ [0]) htp
                hadjC hflC hvC
                ⟨(hpresC e0 (List.mem_cons_self e0 tl)).1,
                 (hpresC e0 (List.mem_cons_self e0 tl)).2.1,
                 (hpresC e0 (List.mem_cons_self e0 tl)).2.2⟩
                (fun e he => (hpresC e (List.mem_cons_of_mem e0 he)).2.2)]
              simp only [Option.some_bind]
              rw [ih f ps (by simp only [List.length_cons] at hfuel; omega) hO
                (fun D hD => hne D (List.mem_cons_of_mem (e0 :: tl) hD))
                (fun D hD => hadj D (List.mem_cons_of_mem (e0 :: tl) hD))
                (fun D hD => hfl D (List.mem_cons_of_mem (e0 :: tl) hD))
                (fun D hD => hv D (List.mem_cons_of_mem (e0 :: tl) hD))
                (fun D hD => hpres D (List.mem_cons_of_mem (e0 :: tl) hD))]
              simp only [Option.map_some', List.map_cons]

theorem mapM_flatten_length_of {α : Type} (f : α → Option (List Int)) (g : α → Nat) :
    ∀ (l : List α) (ps : List (List Int)), l.mapM f = some ps →
    (∀ x ∈ l, ∀ y, f x = some y → y.length = g x) →
    ps.flatten.length = (l.map g).sum := by
  intro l
  induction l with
  | nil =>
    intro ps h _
    simp only [List.mapM_nil, Option.pure_def, Option.some.injEq] at h
    subst h
    simp
  | cons a l ih =>
    intro ps h hk
    rw [List.mapM_cons] at h
    match ha : f a with
    | none => rw [ha] at h; exact absurd h (by simp)
    | some b =>
      rw [ha] at h
      match hl : l.mapM f with
      | none => rw [hl] at h; simp at h
      | some ps2 =>
        rw [hl] at h
        have h2 : (some (b :: ps2) : Option (List (List Int))) = some ps := h
        simp only [Option.some.injEq] at h2
        subst h2
        simp only [List.flatten_cons, List.length_append, List.map_cons, List.sum_cons,
          hk a (List.mem_cons_self a l) b ha,
          ih ps2 hl (fun x hx => hk x (List.mem_cons_of_mem a hx))]

theorem declaredTl_eq (ht hn : Bool) :
    ∀ (O : List Chain) (a : Nat),
    O.foldl (fun tl C => tl + (1 + (2 + C.length) * elemOf ht hn)) a
      = a + (O.map (fun C => 1 + (2 + C.length) * elemOf ht hn)).sum := by
  intro O
  induction O with
  | nil => intro a; simp
  | cons C O ih =>
    intro a
    simp only [List.foldl_cons, List.map_cons, List.sum_cons, ih]
    ring

theorem flatten_length_ge : ∀ ps : List (List Int), (∀ p ∈ ps, p ≠ []) →
    ps.length ≤ ps.flatten.length := by
  intro ps
  induction ps with
  | nil => intro _; simp
  | cons p ps ih =>
    intro h
    have hp : 0 < p.length :=
      List.length_pos.mpr (h p (List.mem_cons_self p ps))
    have := ih (fun q hq => h q (List.mem_cons_of_mem p hq))
    simp only [List.length_cons, List.flatten_cons, List.length_append]
    omega

/-- C7: under uniform texcoord/normal presence matching the mesh-level
attribute kinds, the encoder emits exactly the declared element count
`tl = 1 + Σ (1 + (2 + len)·elem)` uint16 words — counting the per-chain
length words and the single terminating `0` — so the
`savemodel() wrong count !` consistency branch cannot fire. -/
theorem C7_element_count (O : List Chain) (ht hn : Bool)
    (hne : ∀ C ∈ O, C ≠ [])
    (hfl : ∀ C ∈ O, ∀ e ∈ C.tail, e.1 = some 0 ∨ e.1 = some 1)
    (hpres : ∀ C ∈ O, ∀ e ∈ C, cornerPres ht hn e.2.1 ∧ cornerPres ht hn e.2.2.1
      ∧ cornerPres ht hn e.2.2.2) :
    ∃ ws, encodeObject O = some ws ∧ ws.length = declaredTl O ht hn := by
  have key : ∀ C ∈ O, ∃ wsC, encodeChain C = some wsC
      ∧ wsC.length = 1 + (2 + C.length) * elemOf ht hn := by
    intro C hC
    obtain ⟨wsC, h1, h2, -⟩ := encodeChain_spec (hne C hC) (hfl C hC) (hpres C hC)
    exact ⟨wsC, h1, h2⟩
  obtain ⟨parts, hparts⟩ :=
    mapM_some_of_forall encodeChain O (fun C hC => ⟨_, (key C hC).choose_spec.1⟩)
  have hflat : parts.flatten.length
      = (O.map (fun C => 1 + (2 + C.length) * elemOf ht hn)).sum := by
    refine mapM_flatten_length_of encodeChain _ O parts hparts ?_
    intro C hC y hy
    obtain ⟨wsC, h1, h2⟩ := key C hC
    rw [hy] at h1
    simp only [Option.some.injEq] at h1
    rw [h1, h2]
  refine ⟨parts.flatten ++ [0], ?_, ?_⟩
  · rw [encodeObject, hparts]
    rfl
  · rw [List.length_append]
    rw [show declaredTl O ht hn
        = 1 + (O.map (fun C => 1 + (2 + C.length) * elemOf ht hn)).sum from
      declaredTl_eq ht hn O 1]
    simp only [List.length_cons, List.length_nil, hflat]
    omega

theorem C7_element_count_witness :
    ((∀ C ∈ objW, C ≠ []) ∧ (∀ C ∈ objW, ∀ e ∈ C.tail, e.1 = some 0 ∨ e.1 = some 1))
    ∧ ∃ ws, encodeObject objW = some ws ∧ ws.length = declaredTl objW true true := by
  refine ⟨⟨by decide, by decide⟩, ?_⟩
  exact C7_element_count objW true true (by decide) (by decide) (by decide)

/-- C6 (decoder modelled from the spec): decoding the encoder's per-object
flat stream — per chain the length word, the first triangle's attribute
triples in full, then one triple per subsequent triangle with the edge bit
folded as `index + 32768*flag`, the whole stream terminated by `0` —
reconstructs, triangle by triangle, exactly the chains that were encoded,
with identical vertex/texcoord/normal indices and winding. -/
theorem C6_round_trip (O : List Chain) (ht hn : Bool)
    (hne : ∀ C ∈ O, C ≠ [])
    (hadj : ∀ C ∈ O, chainAdj C)
    (hfl : ∀ C ∈ O, ∀ e ∈ C.tail, e.1 = some 0 ∨ e.1 = some 1)
    (hv : ∀ C ∈ O, ∀ e ∈ C.tail, 0 ≤ e.2.2.2.1 ∧ e.2.2.2.1 < 32768)
    (hpres : ∀ C ∈ O, ∀ e ∈ C, cornerPres ht hn e.2.1 ∧ cornerPres ht hn e.2.2.1
      ∧ cornerPres ht hn e.2.2.2) :
    ∃ ws, encodeObject O = some ws ∧ decodeStream ht hn ws = some (O.map chainTris) := by
  have key : ∀ C ∈ O, ∃ wsC, encodeChain C = some wsC ∧ wsC ≠ [] := by
    intro C hC
    obtain ⟨wsC, h1, -, h3⟩ := encodeChain_spec (hne C hC) (hfl C hC) (hpres C hC)
    exact ⟨wsC, h1, h3⟩
  obtain ⟨parts, hparts⟩ :=
    mapM_some_of_forall encodeChain O (fun C hC => ⟨_, (key C hC).choose_spec.1⟩)
  have hpne : ∀ p ∈ parts, p ≠ [] := by
    intro p hp
    obtain ⟨C, hC, hCp⟩ := mapM_mem encodeChain O parts hparts p hp
    obtain ⟨wsC, h1, h3⟩ := key C hC
    rw [hCp] at h1
    simp only [Option.some.injEq] at h1
    rw [h1]
    exact h3
  have hlenp : parts.length = O.length := mapM_length encodeChain O parts hparts
  have hge := flatten_length_ge parts hpne
  refine ⟨parts.flatten ++ [0], ?_, ?_⟩
  · rw [encodeObject, hparts]
    rfl
  · rw [decodeStream]
    refine decodeChains_encode O ((parts.flatten ++ [0]).length + 1) parts ?_ hparts
      hne hadj hfl hv hpres
    rw [List.length_append]
    simp only [List.length_cons, List.length_nil]
    omega

theorem chainAdj_iff_chainAdjB (C : Chain) : chainAdj C ↔ chainAdjB C = true := by
  induction C with
  | nil => simp [chainAdj, chainAdjB]
  | cons p rest ih =>
    match rest, ih with
    | [], _ => simp [chainAdj, chainAdjB]
    | q :: rest2, ih =>
      unfold chainAdj at ih ⊢
      rw [List.chain'_cons]
      simp only [chainAdjB, Bool.and_eq_true]
      rw [ih]

theorem C6_round_trip_witness :
    ((∀ C ∈ exR2, C ≠ []) ∧ (∀ C ∈ exR2, chainAdjB C = true)
      ∧ (∀ C ∈ exR2, ∀ e ∈ C.tail, 0 ≤ e.2.2.2.1 ∧ e.2.2.2.1 < 32768))
    ∧ ∃ ws, encodeObject exR2 = some ws
        ∧ decodeStream false false ws = some (exR2.map chainTris) := by
  have hadjw : ∀ C ∈ exR2, chainAdj C := by
    intro C hC
    rw [chainAdj_iff_chainAdjB]
    fin_cases hC
    decide
  refine ⟨⟨by decide, by decide, by decide⟩, ?_⟩
  exact C6_round_trip exR2 false false (by decide) hadjw (by decide) (by decide)
    (by decide)

/-- C5 counterexample: on the nonempty normal array `[(3,0,0)]` the function
returns `[(1,0,0)]` — the final normalization loop runs on nonempty input
too, so the array is NOT passed through unchanged. -/
theorem C5_counterexample :
    fixNormals [] [((3 : ℝ), 0, 0)] [] false
        = some ([((1 : ℝ), 0, 0)], ([] : List (List Tri)))
      ∧ ([((1 : ℝ), 0, 0)] : List Vec3) ≠ [((3 : ℝ), 0, 0)] := by
  have hs : Real.sqrt ((3 : ℝ) * 3 + 0 * 0 + 0 * 0) = 3 := by
    rw [show (3 : ℝ) * 3 + 0 * 0 + 0 * 0 = 3 ^ 2 by norm_num,
      Real.sqrt_sq (by norm_num : (0 : ℝ) ≤ 3)]
  constructor
  · unfold fixNormals
    rw [if_neg (by simp)]
    simp only [List.map_cons, List.map_nil, normVec]
    rw [hs]
    rw [if_neg (by norm_num : (3 : ℝ) ≠ 0)]
    norm_num
  · intro h
    injection h with h1 h2
    injection h1 with ha hb
    exact absurd ha (by norm_num)

/-- C5 (corrected): when the input normal array is nonempty, `fixNormals`
skips the synthesis branch and leaves the triangles untouched, but it does
not return the array unchanged — it returns the entrywise normalization
`normal.map normVec`. -/
theorem C5_normalize_passthrough (vertice normal : List Vec3) (obj : List (List Tri))
    (ans : Bool) (hne : normal ≠ []) :
    fixNormals vertice normal obj ans = some (normal.map normVec, obj) := by
  unfold fixNormals
  rw [if_neg (fun h => hne (List.length_eq_zero.mp h))]

theorem C5_normalize_passthrough_witness :
    ([((3 : ℝ), 0, 0)] : List Vec3) ≠ []
    ∧ fixNormals [] [((3 : ℝ), 0, 0)] [] true
        = some (([((3 : ℝ), 0, 0)] : List Vec3).map normVec, ([] : List (List Tri))) :=
  ⟨by simp, C5_normalize_passthrough [] [((3 : ℝ), 0, 0)] [] true (by simp)⟩

end ObjToH
